import Mathlib

/-!
Verification development for the `FileTreeNode` component of the
AgaveClientInterface repository (src/remoteFiles/filetreenode.cpp).

`FileTreeNode` maintains a lazily populated tree of remote files and
directories.  Each node carries file metadata, a state-machine state, a
visibility flag, knowledge flags about folder contents / a file buffer,
and optional pending remote tasks (an `ls` listing task for directories,
a buffer-download task for files).  Replies from the remote interface are
delivered to a node, which synchronises its children against the
delivered listing and recomputes its state.

The embedding below is a shallow functional model of that code:
Qt signal/slot plumbing, the `QStandardItemModel` row creation and the
`FileOperator` change notifications are display-layer side effects that
are either recorded as explicit events (deferred deletion, model-item
purging) or documented as outside the model (row creation inside
`updateModelItems`).  Machine pointers are modelled by `Option Nat`
task identifiers and by index paths (`List Nat`) locating a node inside
the tree.
-/

/-- File types of `FileMetaData` (filemetadata.h, not under src/).
Modelled from the spec: the code distinguishes `DIR`, `FILE` and
`INVALID`; the remaining constructors stand for the other members of the
enum, none of which is treated specially by filetreenode.cpp. -/
inductive FileType where
  | FILE
  | DIR
  | SIM_LINK
  | EMPTY_FOLDER
  | INVALID
  | UNLOADED
deriving DecidableEq, Repr

/-- Node states of the `FileTreeNode` state machine (filetreenode.h, not
under src/).  Modelled from the spec: exactly the states named by
filetreenode.cpp's `recomputeNodeState` / `changeNodeState` /
`recomputeModelItems`. -/
inductive NodeState where
  | NON_EXTANT
  | INIT
  | ERROR
  | DELETING
  | FILE_SPECULATE_IDLE
  | FILE_SPECULATE_LOADING
  | FILE_KNOWN
  | FILE_BUFF_LOADING
  | FILE_BUFF_RELOADING
  | FILE_BUFF_LOADED
  | FOLDER_SPECULATE_IDLE
  | FOLDER_SPECULATE_LOADING
  | FOLDER_KNOWN_CONTENTS_NOT
  | FOLDER_CONTENTS_LOADING
  | FOLDER_CONTENTS_RELOADING
  | FOLDER_CONTENTS_LOADED
deriving DecidableEq, Repr

/-- Reply states of `RemoteDataInterface` (remotedatainterface.h, not
under src/).  Modelled from the spec: filetreenode.cpp only
distinguishes `GOOD`, `FILE_NOT_FOUND`, and "everything else"; the two
extra constructors represent the rest of the enum. -/
inductive RequestState where
  | GOOD
  | FILE_NOT_FOUND
  | NO_CONNECT
  | GENERIC_FAIL
deriving DecidableEq, Repr

/-- Modelled from the spec: `FileMetaData` (filemetadata.h/.cpp, not
under src/) stores a file's full path, its type, and its size; those are
the only fields filetreenode.cpp reads or writes. -/
structure FileMetaData where
  fullPath : String
  fileType : FileType
  size : Nat
deriving DecidableEq, Repr

/-- Splitting a path into its slash-separated components, skipping empty
parts: the accumulator collects the characters of the current component
in reverse. -/
def pathPartsAux : List Char → List Char → List String
  | [], acc => if acc.isEmpty then [] else [String.mk acc.reverse]
  | c :: rest, acc =>
    if c = '/' then
      if acc.isEmpty then pathPartsAux rest []
      else String.mk acc.reverse :: pathPartsAux rest []
    else pathPartsAux rest (c :: acc)

/-- Modelled from the spec: `FileMetaData::getPathNameList` splits a
path string into its slash-separated components, skipping empty parts. -/
def getPathNameList (s : String) : List String :=
  pathPartsAux s.data []

/-- Modelled from the spec: `RemoteDataInterface::removeDoubleSlashes`
(remotedatainterface.cpp, not under src/) collapses every run of
consecutive slashes in a path to a single slash. -/
def collapseSlashes : List Char → List Char
  | [] => []
  | [c] => [c]
  | c :: d :: rest =>
    if c = '/' ∧ d = '/' then collapseSlashes (d :: rest)
    else c :: collapseSlashes (d :: rest)

def removeDoubleSlashes (s : String) : String :=
  ⟨collapseSlashes s.data⟩

/-- `FileMetaData::getFileName`: last component of the full path. -/
def FileMetaData.getFileName (m : FileMetaData) : String :=
  (getPathNameList m.fullPath).getLastD ""

/-- `FileMetaData::getContainingPath`: the full path without its last
component. -/
def FileMetaData.getContainingPath (m : FileMetaData) : String :=
  "/" ++ String.intercalate "/" (getPathNameList m.fullPath).dropLast

def FileMetaData.getFullPath (m : FileMetaData) : String :=
  m.fullPath

def FileMetaData.getFileType (m : FileMetaData) : FileType :=
  m.fileType

def FileMetaData.getSize (m : FileMetaData) : Nat :=
  m.size

/-- The per-node data of a `FileTreeNode`.  The `:=` defaults are the
in-class initialisers of filetreenode.h (not under src/), modelled from
the spec: a freshly constructed node starts in state `INIT`, invisible,
with unknown folder contents, no pending tasks, no file buffer and no
model-item rows.  `modelItems` and `placeholder` model the node's
`modelItemList` rows and its `decendantPlaceholderItem` row as abstract
row tokens. -/
structure NodeCore where
  fileData : FileMetaData
  myState : NodeState := NodeState.INIT
  nodeVisible : Bool := false
  folderContentsKnown : Bool := false
  lsTask : Option Nat := none
  bufferTask : Option Nat := none
  fileDataBuffer : Option (List Nat) := none
  modelItems : List Nat := []
  placeholder : Option Nat := none
deriving DecidableEq, Repr

/-- `FileTreeNode::haveLStask`. -/
def haveLStask (c : NodeCore) : Bool :=
  c.lsTask.isSome

/-- `FileTreeNode::haveBuffTask`. -/
def haveBuffTask (c : NodeCore) : Bool :=
  c.bufferTask.isSome

/-- The file tree: a node's core data together with its `childList`. -/
inductive FTree where
  | node (core : NodeCore) (children : List FTree)

def FTree.core : FTree → NodeCore
  | .node c _ => c

def FTree.children : FTree → List FTree
  | .node _ cs => cs

/-- Display-layer events produced by `changeNodeState`: whether
`deleteLater` was invoked (deferred deletion through the event loop),
whether `delete` was invoked directly (it never is), and whether
`recomputeModelItems` ran. -/
structure NodeEvents where
  deleteLaterInvoked : Bool := false
  immediateDeleteInvoked : Bool := false
  modelItemsRecomputed : Bool := false
deriving DecidableEq, Repr

/-- The action `FileTreeNode::recomputeModelItems` selects for a state:
purge the node's rows, refresh/create them (with the folder-contents
flag), or do nothing. -/
inductive ModelAction where
  | purge
  | refresh (folderContentsLoaded : Bool)
  | nothing
deriving DecidableEq, Repr

/-- The `switch (myState)` of `FileTreeNode::recomputeModelItems`. -/
def recomputeModelItemsAction : NodeState → ModelAction
  | .DELETING => .purge
  | .ERROR => .purge
  | .NON_EXTANT => .purge
  | .FILE_BUFF_LOADED => .refresh false
  | .FILE_BUFF_LOADING => .refresh false
  | .FILE_BUFF_RELOADING => .refresh false
  | .FILE_KNOWN => .refresh false
  | .FOLDER_CONTENTS_LOADING => .refresh false
  | .FOLDER_CONTENTS_RELOADING => .refresh false
  | .FOLDER_KNOWN_CONTENTS_NOT => .refresh false
  | .FOLDER_CONTENTS_LOADED => .refresh true
  | .FILE_SPECULATE_IDLE => .nothing
  | .FILE_SPECULATE_LOADING => .nothing
  | .FOLDER_SPECULATE_IDLE => .nothing
  | .FOLDER_SPECULATE_LOADING => .nothing
  | .INIT => .nothing

/-- `FileTreeNode::purgeModelItems`: nothing to do when the node has no
rows; otherwise the placeholder row and the node's own rows are removed
from the item model and both fields are cleared. -/
def purgeModelItems (c : NodeCore) : NodeCore :=
  if c.modelItems.isEmpty then c
  else { c with modelItems := [], placeholder := none }

/-- Effect of `recomputeModelItems` on the node's own row bookkeeping.
The `refresh` branches (`updateModelItems`) create or retext rows inside
the shared `QStandardItemModel`; that display-side work is outside this
model, so only the `purge` branch changes the abstract fields. -/
def applyModelAction : ModelAction → NodeCore → NodeCore
  | .purge, c => purgeModelItems c
  | .refresh _, c => c
  | .nothing, c => c

/-- `FileTreeNode::changeNodeState` restricted to the node's own fields,
with its display-layer side effects reported as events.  The refresh of
the parent's model items and the `fileNodesChange` notification to the
`FileOperator` touch no field of this node and are outside the model. -/
def changeNodeStateEv (c : NodeCore) (newState : NodeState) :
    NodeCore × NodeEvents :=
  if c.myState = NodeState.DELETING then (c, {})
  else if newState = c.myState then (c, {})
  else
    let c1 := { c with myState := newState }
    let ev : NodeEvents :=
      { deleteLaterInvoked := newState = NodeState.DELETING
        immediateDeleteInvoked := false
        modelItemsRecomputed := true }
    (applyModelAction (recomputeModelItemsAction newState) c1, ev)

def changeNodeStateCore (c : NodeCore) (newState : NodeState) : NodeCore :=
  (changeNodeStateEv c newState).1

/-- `changeNodeState` lifted to a tree node (children untouched). -/
def changeNodeStateT (t : FTree) (newState : NodeState) : FTree :=
  .node (changeNodeStateCore t.core newState) t.children

/-- The state selected by the if-cascade of
`FileTreeNode::recomputeNodeState`, given whether `childList` is
empty. -/
def computeState (c : NodeCore) (childrenEmpty : Bool) : NodeState :=
  if c.fileData.getFileType = FileType.DIR then
    if !c.nodeVisible then
      if haveLStask c then NodeState.FOLDER_SPECULATE_LOADING
      else NodeState.FOLDER_SPECULATE_IDLE
    else if haveLStask c then
      if !childrenEmpty then NodeState.FOLDER_CONTENTS_RELOADING
      else NodeState.FOLDER_CONTENTS_LOADING
    else
      if !c.folderContentsKnown then NodeState.FOLDER_KNOWN_CONTENTS_NOT
      else NodeState.FOLDER_CONTENTS_LOADED
  else if c.fileData.getFileType = FileType.FILE then
    if !c.nodeVisible then
      if haveBuffTask c then NodeState.FILE_SPECULATE_LOADING
      else NodeState.FILE_SPECULATE_IDLE
    else if haveBuffTask c then
      if c.fileDataBuffer.isSome then NodeState.FILE_BUFF_RELOADING
      else NodeState.FILE_BUFF_LOADING
    else
      if c.fileDataBuffer.isNone then NodeState.FILE_KNOWN
      else NodeState.FILE_BUFF_LOADED
  else NodeState.ERROR

/-- `FileTreeNode::recomputeNodeState`: no-op on a `DELETING` node,
otherwise install the state computed from the node's fields through
`changeNodeState`. -/
def recomputeNodeState (t : FTree) : FTree :=
  match t with
  | .node c cs =>
    if c.myState = NodeState.DELETING then .node c cs
    else .node (changeNodeStateCore c (computeState c cs.isEmpty)) cs

/-- `FileTreeNode::FileTreeNode(QString rootFolderName, FileOperator*,
QObject*)`: the root-node constructor.  The full path is "/" followed by
the root folder name, with double slashes removed; the node is a `DIR`,
is visible, and its state is then recomputed (from `INIT`). -/
def mkRoot (rootFolderName : String) : FTree :=
  let fullPath := removeDoubleSlashes ("/" ++ rootFolderName)
  recomputeNodeState
    (.node { fileData := { fullPath := fullPath, fileType := FileType.DIR, size := 0 }
             nodeVisible := true } [])

/-- `FileTreeNode::FileTreeNode(FileMetaData contents, FileTreeNode*
parent)`: the child-node constructor.  It copies the delivered metadata,
appends itself to the parent's child list (done at the call site,
`insertFile`), and recomputes its state from the header defaults. -/
def mkChildNode (contents : FileMetaData) : FTree :=
  recomputeNodeState (.node { fileData := contents } [])

/-- Events recorded by `setLStask` / `setBuffTask`: whether a previous
task was disconnected and whether the new task was connected. -/
structure TaskEvents where
  disconnectedPrevious : Bool := false
  connectedNew : Bool := false
deriving DecidableEq, Repr

/-- `FileTreeNode::setLStask`.  A null task is ignored; a task on a
non-`DIR` node is ignored (debug message only); otherwise any previous
task is disconnected, the new task is installed and connected, and the
node state is recomputed. -/
def setLStask (t : FTree) (newTask : Option Nat) : FTree × TaskEvents :=
  match newTask with
  | none => (t, {})
  | some tid =>
    if t.core.fileData.getFileType ≠ FileType.DIR then (t, {})
    else
      let ev : TaskEvents :=
        { disconnectedPrevious := (haveLStask t.core)
          connectedNew := true }
      (recomputeNodeState (.node { t.core with lsTask := some tid } t.children), ev)

/-- `FileTreeNode::setBuffTask`.  Symmetric to `setLStask`, for `FILE`
nodes and the buffer-download task. -/
def setBuffTask (t : FTree) (newTask : Option Nat) : FTree × TaskEvents :=
  match newTask with
  | none => (t, {})
  | some tid =>
    if t.core.fileData.getFileType ≠ FileType.FILE then (t, {})
    else
      let ev : TaskEvents :=
        { disconnectedPrevious := (haveBuffTask t.core)
          connectedNew := true }
      (recomputeNodeState (.node { t.core with bufferTask := some tid } t.children), ev)

/-- `FileTreeNode::setFileBuffer` as it acts on the node itself: the old
buffer is replaced by the new one, the node is made visible
(`setNodeVisible`), and the state is recomputed.  The returned flag
reports whether the node went from invisible to visible, in which case
`setNodeVisible` also propagates visibility to the parent chain (handled
by the caller through `propagateAt`).  The intermediate
`recomputeNodeState` of `setNodeVisible` is superseded by the final one,
which reads the same final field values. -/
def setFileBuffer (t : FTree) (newFileBuffer : Option (List Nat)) : FTree × Bool :=
  match t with
  | .node c cs =>
    let c1 := { c with fileDataBuffer := newFileBuffer }
    if c1.nodeVisible then (recomputeNodeState (.node c1 cs), false)
    else (recomputeNodeState (.node { c1 with nodeVisible := true } cs), true)

/-- The two state-machine entry points of claim C8, as callable
operations on a node. -/
inductive NodeCall where
  | change (s : NodeState)
  | recompute
deriving DecidableEq, Repr

/-- Apply one `changeNodeState` / `recomputeNodeState` call to a tree
node, reporting the display-layer events.  `recomputeNodeState` reaches
`changeNodeState` only when the node is not `DELETING`. -/
def applyNodeCall (t : FTree) (call : NodeCall) : FTree × NodeEvents :=
  match t, call with
  | .node c cs, .change s =>
    let (c', ev) := changeNodeStateEv c s
    (.node c' cs, ev)
  | .node c cs, .recompute =>
    if c.myState = NodeState.DELETING then (.node c cs, {})
    else
      let (c', ev) := changeNodeStateEv c (computeState c cs.isEmpty)
      (.node c' cs, ev)

/-- Apply a sequence of `changeNodeState` / `recomputeNodeState` calls,
collecting the events of each call. -/
def applyNodeCalls (t : FTree) : List NodeCall → FTree × List NodeEvents
  | [] => (t, [])
  | call :: rest =>
    let (t1, ev) := applyNodeCall t call
    let (t2, evs) := applyNodeCalls t1 rest
    (t2, ev :: evs)

@[simp] theorem FTree.core_node (c : NodeCore) (cs : List FTree) :
    (FTree.node c cs).core = c := rfl

@[simp] theorem FTree.children_node (c : NodeCore) (cs : List FTree) :
    (FTree.node c cs).children = cs := rfl

theorem FTree.eta (t : FTree) : FTree.node t.core t.children = t := by
  cases t <;> rfl

theorem applyModelAction_myState (a : ModelAction) (c : NodeCore) :
    (applyModelAction a c).myState = c.myState := by
  cases a <;> simp only [applyModelAction, purgeModelItems] <;> split <;> rfl

theorem applyModelAction_fileData (a : ModelAction) (c : NodeCore) :
    (applyModelAction a c).fileData = c.fileData := by
  cases a <;> simp only [applyModelAction, purgeModelItems] <;> split <;> rfl

theorem applyModelAction_nodeVisible (a : ModelAction) (c : NodeCore) :
    (applyModelAction a c).nodeVisible = c.nodeVisible := by
  cases a <;> simp only [applyModelAction, purgeModelItems] <;> split <;> rfl

theorem applyModelAction_folderContentsKnown (a : ModelAction) (c : NodeCore) :
    (applyModelAction a c).folderContentsKnown = c.folderContentsKnown := by
  cases a <;> simp only [applyModelAction, purgeModelItems] <;> split <;> rfl

theorem applyModelAction_lsTask (a : ModelAction) (c : NodeCore) :
    (applyModelAction a c).lsTask = c.lsTask := by
  cases a <;> simp only [applyModelAction, purgeModelItems] <;> split <;> rfl

theorem applyModelAction_bufferTask (a : ModelAction) (c : NodeCore) :
    (applyModelAction a c).bufferTask = c.bufferTask := by
  cases a <;> simp only [applyModelAction, purgeModelItems] <;> split <;> rfl

theorem applyModelAction_fileDataBuffer (a : ModelAction) (c : NodeCore) :
    (applyModelAction a c).fileDataBuffer = c.fileDataBuffer := by
  cases a <;> simp only [applyModelAction, purgeModelItems] <;> split <;> rfl

theorem changeNodeStateCore_of_deleting (c : NodeCore) (s : NodeState)
    (h : c.myState = NodeState.DELETING) : changeNodeStateCore c s = c := by
  simp only [changeNodeStateCore, changeNodeStateEv, if_pos h]

theorem changeNodeStateCore_myState (c : NodeCore) (s : NodeState)
    (h : c.myState ≠ NodeState.DELETING) :
    (changeNodeStateCore c s).myState = s := by
  simp only [changeNodeStateCore, changeNodeStateEv, if_neg h]
  by_cases h2 : s = c.myState
  · simp [h2]
  · simp only [if_neg h2, applyModelAction_myState]

theorem changeNodeStateCore_myState_deleting (c : NodeCore) :
    (changeNodeStateCore c NodeState.DELETING).myState = NodeState.DELETING := by
  by_cases h : c.myState = NodeState.DELETING
  · rw [changeNodeStateCore_of_deleting c _ h, h]
  · exact changeNodeStateCore_myState c _ h

theorem changeNodeStateCore_fileData (c : NodeCore) (s : NodeState) :
    (changeNodeStateCore c s).fileData = c.fileData := by
  simp only [changeNodeStateCore, changeNodeStateEv]
  split
  · rfl
  · split
    · rfl
    · simp only [applyModelAction_fileData]

theorem changeNodeStateCore_nodeVisible (c : NodeCore) (s : NodeState) :
    (changeNodeStateCore c s).nodeVisible = c.nodeVisible := by
  simp only [changeNodeStateCore, changeNodeStateEv]
  split
  · rfl
  · split
    · rfl
    · simp only [applyModelAction_nodeVisible]

theorem changeNodeStateCore_folderContentsKnown (c : NodeCore) (s : NodeState) :
    (changeNodeStateCore c s).folderContentsKnown = c.folderContentsKnown := by
  simp only [changeNodeStateCore, changeNodeStateEv]
  split
  · rfl
  · split
    · rfl
    · simp only [applyModelAction_folderContentsKnown]

theorem changeNodeStateCore_lsTask (c : NodeCore) (s : NodeState) :
    (changeNodeStateCore c s).lsTask = c.lsTask := by
  simp only [changeNodeStateCore, changeNodeStateEv]
  split
  · rfl
  · split
    · rfl
    · simp only [applyModelAction_lsTask]

theorem changeNodeStateCore_bufferTask (c : NodeCore) (s : NodeState) :
    (changeNodeStateCore c s).bufferTask = c.bufferTask := by
  simp only [changeNodeStateCore, changeNodeStateEv]
  split
  · rfl
  · split
    · rfl
    · simp only [applyModelAction_bufferTask]

theorem changeNodeStateCore_fileDataBuffer (c : NodeCore) (s : NodeState) :
    (changeNodeStateCore c s).fileDataBuffer = c.fileDataBuffer := by
  simp only [changeNodeStateCore, changeNodeStateEv]
  split
  · rfl
  · split
    · rfl
    · simp only [applyModelAction_fileDataBuffer]

theorem recomputeNodeState_children (t : FTree) :
    (recomputeNodeState t).children = t.children := by
  cases t with
  | node c cs =>
    simp only [recomputeNodeState]
    split <;> rfl

theorem recomputeNodeState_of_deleting (c : NodeCore) (cs : List FTree)
    (h : c.myState = NodeState.DELETING) :
    recomputeNodeState (.node c cs) = .node c cs := by
  simp only [recomputeNodeState, if_pos h]

theorem recomputeNodeState_myState (c : NodeCore) (cs : List FTree)
    (h : c.myState ≠ NodeState.DELETING) :
    (recomputeNodeState (.node c cs)).core.myState = computeState c cs.isEmpty := by
  simp only [recomputeNodeState, if_neg h, FTree.core_node]
  exact changeNodeStateCore_myState c _ h

/-- The state table as the specification words it (claim C1): for a
`DIR`, visibility and a pending ls task plus children select among the
folder states; for a `FILE`, visibility and a pending buffer task plus
buffer presence select among the file states; any other type is an
error. -/
def specRecomputedState (ft : FileType) (visible lsPending buffPending hasChildren contentsKnown bufferPresent : Bool) : NodeState :=
  match ft with
  | .DIR =>
    if !visible then
      if lsPending then .FOLDER_SPECULATE_LOADING else .FOLDER_SPECULATE_IDLE
    else if lsPending then
      if hasChildren then .FOLDER_CONTENTS_RELOADING else .FOLDER_CONTENTS_LOADING
    else
      if !contentsKnown then .FOLDER_KNOWN_CONTENTS_NOT else .FOLDER_CONTENTS_LOADED
  | .FILE =>
    if !visible then
      if buffPending then .FILE_SPECULATE_LOADING else .FILE_SPECULATE_IDLE
    else if buffPending then
      if bufferPresent then .FILE_BUFF_RELOADING else .FILE_BUFF_LOADING
    else
      if !bufferPresent then .FILE_KNOWN else .FILE_BUFF_LOADED
  | _ => .ERROR

theorem computeState_eq_spec (c : NodeCore) (childrenEmpty : Bool) :
    computeState c childrenEmpty =
      specRecomputedState c.fileData.getFileType c.nodeVisible (haveLStask c)
        (haveBuffTask c) (!childrenEmpty) c.folderContentsKnown
        c.fileDataBuffer.isSome := by
  unfold computeState specRecomputedState
  cases h : c.fileData.getFileType <;>
    simp [Option.isNone_iff_eq_none, Option.isSome_iff_exists] <;>
    cases hv : c.nodeVisible <;>
    cases hb : c.fileDataBuffer <;>
    simp

/-- C1: for every node whose state is not `DELETING`,
`recomputeNodeState` sets the node state to a pure function of the file
type, the visibility flag, the pending task, and the contents/buffer
knowledge, following the table of `specRecomputedState`; a `DELETING`
node is left completely unchanged. -/
theorem claim_C1_recomputeNodeState_table (c : NodeCore) (cs : List FTree) :
    (c.myState ≠ NodeState.DELETING →
      (recomputeNodeState (.node c cs)).core.myState =
        specRecomputedState c.fileData.getFileType c.nodeVisible (haveLStask c)
          (haveBuffTask c) (!cs.isEmpty) c.folderContentsKnown
          c.fileDataBuffer.isSome) ∧
    (c.myState = NodeState.DELETING →
      recomputeNodeState (.node c cs) = .node c cs) := by
  constructor
  · intro h
    rw [recomputeNodeState_myState c cs h, computeState_eq_spec]
  · intro h
    exact recomputeNodeState_of_deleting c cs h

def c1WitnessCore : NodeCore :=
  { fileData := { fullPath := "/testroot", fileType := FileType.DIR, size := 0 }
    myState := NodeState.INIT
    nodeVisible := true }

theorem claim_C1_recomputeNodeState_table_witness :
    (recomputeNodeState (.node c1WitnessCore [])).core.myState =
      NodeState.FOLDER_KNOWN_CONTENTS_NOT := by
  have h := (claim_C1_recomputeNodeState_table c1WitnessCore []).1 (by decide)
  exact h.trans (by decide)

/-- C4: a transition into `DELETING` through `changeNodeState` defers
the node's destruction to the event loop (`deleteLater` is invoked, no
direct `delete` happens) and removes the node's rows — including any
descendant placeholder row — from the widget item model. -/
theorem claim_C4_deleting_defers_and_purges (c : NodeCore)
    (h : c.myState ≠ NodeState.DELETING)
    (hrows : c.modelItems = [] → c.placeholder = none) :
    (changeNodeStateEv c NodeState.DELETING).2.deleteLaterInvoked = true ∧
    (changeNodeStateEv c NodeState.DELETING).2.immediateDeleteInvoked = false ∧
    (changeNodeStateEv c NodeState.DELETING).1.myState = NodeState.DELETING ∧
    (changeNodeStateEv c NodeState.DELETING).1.modelItems = [] ∧
    (changeNodeStateEv c NodeState.DELETING).1.placeholder = none := by
  have hne : NodeState.DELETING ≠ c.myState := fun hEq => h hEq.symm
  simp only [changeNodeStateEv, if_neg h, if_neg hne, recomputeModelItemsAction,
    applyModelAction, purgeModelItems]
  by_cases hm : c.modelItems = [] <;> simp [hm, hrows]

def c4WitnessCore : NodeCore :=
  { fileData := { fullPath := "/testroot/a.txt", fileType := FileType.FILE, size := 3 }
    myState := NodeState.FILE_KNOWN
    nodeVisible := true
    modelItems := [7]
    placeholder := some 9 }

theorem claim_C4_witness :
    (changeNodeStateEv c4WitnessCore NodeState.DELETING).2.deleteLaterInvoked = true ∧
    (changeNodeStateEv c4WitnessCore NodeState.DELETING).1.modelItems = [] := by
  have h := claim_C4_deleting_defers_and_purges c4WitnessCore (by decide) (by decide)
  exact ⟨h.1, h.2.2.2.1⟩

/-- C6: `setLStask` ignores a null task and ignores tasks on non-`DIR`
nodes, leaving the node entirely unchanged; on a `DIR` node a non-null
task is installed (disconnecting any previous task) and the node state
is recomputed.  `setBuffTask` behaves symmetrically for `FILE` nodes and
the buffer-download task. -/
theorem claim_C6_task_setters (t : FTree) (tid : Nat) :
    (setLStask t none = (t, {})) ∧
    (setBuffTask t none = (t, {})) ∧
    (t.core.fileData.getFileType ≠ FileType.DIR →
      setLStask t (some tid) = (t, {})) ∧
    (t.core.fileData.getFileType = FileType.DIR →
      setLStask t (some tid) =
        (recomputeNodeState (.node { t.core with lsTask := some tid } t.children),
         { disconnectedPrevious := haveLStask t.core, connectedNew := true })) ∧
    (t.core.fileData.getFileType ≠ FileType.FILE →
      setBuffTask t (some tid) = (t, {})) ∧
    (t.core.fileData.getFileType = FileType.FILE →
      setBuffTask t (some tid) =
        (recomputeNodeState (.node { t.core with bufferTask := some tid } t.children),
         { disconnectedPrevious := haveBuffTask t.core, connectedNew := true })) := by
  refine ⟨rfl, rfl, ?_, ?_, ?_, ?_⟩
  · intro h
    simp only [setLStask, if_pos h]
  · intro h
    have hc : ¬ t.core.fileData.getFileType ≠ FileType.DIR := fun hne => hne h
    simp only [setLStask, if_neg hc]
  · intro h
    simp only [setBuffTask, if_pos h]
  · intro h
    have hc : ¬ t.core.fileData.getFileType ≠ FileType.FILE := fun hne => hne h
    simp only [setBuffTask, if_neg hc]

def c6WitnessTree : FTree :=
  .node { fileData := { fullPath := "/testroot/sub", fileType := FileType.DIR, size := 0 }
          myState := NodeState.FOLDER_SPECULATE_IDLE } []

theorem claim_C6_witness :
    (c6WitnessTree.core.fileData.getFileType = FileType.DIR) ∧
    setLStask c6WitnessTree (some 5) =
      (recomputeNodeState
        (.node { c6WitnessTree.core with lsTask := some 5 } c6WitnessTree.children),
       { disconnectedPrevious := haveLStask c6WitnessTree.core, connectedNew := true }) :=
  ⟨by decide, ((claim_C6_task_setters c6WitnessTree 5).2.2.2.1 (by decide))⟩

theorem applyNodeCall_of_deleting (t : FTree) (call : NodeCall)
    (h : t.core.myState = NodeState.DELETING) :
    applyNodeCall t call = (t, {}) := by
  obtain ⟨c, cs⟩ := t
  simp only [FTree.core_node] at h
  cases call with
  | change s =>
    simp only [applyNodeCall, changeNodeStateEv, if_pos h]
  | recompute =>
    simp only [applyNodeCall, if_pos h]

/-- C8: the `DELETING` state is absorbing — once a node's state is
`DELETING`, any sequence of `changeNodeState` / `recomputeNodeState`
calls leaves the node unchanged, and none of the calls defers a
deletion, deletes directly, or recomputes the model items. -/
theorem claim_C8_deleting_absorbing (t : FTree)
    (h : t.core.myState = NodeState.DELETING) (calls : List NodeCall) :
    applyNodeCalls t calls = (t, calls.map fun _ => ({} : NodeEvents)) := by
  induction calls with
  | nil => rfl
  | cons call rest ih =>
    simp only [applyNodeCalls, applyNodeCall_of_deleting t call h, ih, List.map_cons]

def c8WitnessTree : FTree :=
  .node { fileData := { fullPath := "/testroot/gone", fileType := FileType.FILE, size := 1 }
          myState := NodeState.DELETING } []

theorem claim_C8_witness :
    applyNodeCalls c8WitnessTree
        [NodeCall.recompute, NodeCall.change NodeState.ERROR, NodeCall.recompute] =
      (c8WitnessTree, [{}, {}, {}]) :=
  claim_C8_deleting_absorbing c8WitnessTree (by decide)
    [NodeCall.recompute, NodeCall.change NodeState.ERROR, NodeCall.recompute]

/-- The match test of `insertFile` and `purgeUnmatchedChildren`: the
entry's full path equals the child's full path and the file types
agree. -/
def entryMatchesChild (e : FileMetaData) (ch : FTree) : Bool :=
  decide (e.getFullPath = ch.core.fileData.getFullPath) &&
    decide (e.getFileType = ch.core.fileData.getFileType)

/-- A child's identity for synchronisation purposes: its full path and
its file type. -/
def childKey (ch : FTree) : String × FileType :=
  (ch.core.fileData.getFullPath, ch.core.fileData.getFileType)

def entryKey (e : FileMetaData) : String × FileType :=
  (e.getFullPath, e.getFileType)

theorem entryMatchesChild_iff_key (e : FileMetaData) (ch : FTree) :
    entryMatchesChild e ch = true ↔ entryKey e = childKey ch := by
  simp [entryMatchesChild, entryKey, childKey, Prod.ext_iff]

/-- The inner loop of `purgeUnmatchedChildren`: a child is matched when
some entry of the delivered list that is not the "." control entry has
the child's full path and file type. -/
def childMatchesList (ch : FTree) (newChildList : List FileMetaData) : Bool :=
  newChildList.any (fun e => !(decide (e.getFileName = ".")) && entryMatchesChild e ch)

/-- `FileTreeNode::purgeUnmatchedChildren`.  The source pops children
from the back of `childList`, collects the matched ones in `altList`
(and moves each unmatched one to `DELETING`), then pops `altList` from
the back to rebuild `childList`; the two reversals mean the kept
children end up in their original relative order.  The second component
is the list of the removed (now `DELETING`) children, in processing
order. -/
def purgeUnmatchedChildren (cs : List FTree) (newChildList : List FileMetaData) :
    List FTree × List FTree :=
  if cs.isEmpty then (cs, [])
  else
    let alt := cs.reverse.filter (fun ch => childMatchesList ch newChildList)
    let removed :=
      (cs.reverse.filter (fun ch => !(childMatchesList ch newChildList))).map
        (fun ch => changeNodeStateT ch NodeState.DELETING)
    (alt.reverse, removed)

/-- `FileNodeRef::setSize` on a node's stored metadata (filenoderef, not
under src/): modelled from the spec as updating the node's stored file
size. -/
def setSizeT (ch : FTree) (newSize : Nat) : FTree :=
  .node { ch.core with fileData := { ch.core.fileData with size := newSize } } ch.children

/-- The scan of `FileTreeNode::insertFile` over `childList`: the first
child whose full path and file type match the entry absorbs it (its
size is updated if it differs); if no child matches, a new child node is
constructed, which appends itself to the list. -/
def insertFileGo : List FTree → FileMetaData → List FTree
  | [], newData => [mkChildNode newData]
  | ch :: rest, newData =>
    if entryMatchesChild newData ch then
      (if newData.getSize ≠ ch.core.fileData.getSize then setSizeT ch newData.getSize
       else ch) :: rest
    else ch :: insertFileGo rest newData

/-- `FileTreeNode::insertFile`: the "." control entry is never
inserted. -/
def insertFile (cs : List FTree) (newData : FileMetaData) : List FTree :=
  if newData.getFileName = "." then cs else insertFileGo cs newData

/-- `FileTreeNode::setNodeVisible` as it acts on one child during the
visibility loop of `updateFileNodeData`: an already visible child is
untouched; an invisible child becomes visible and recomputes its state.
The call it makes on its parent is accounted for by the caller. -/
def childSetVisible (ch : FTree) : FTree :=
  if ch.core.nodeVisible then ch
  else recomputeNodeState (.node { ch.core with nodeVisible := true } ch.children)

/-- `FileTreeNode::clearAllChildren`: every child is popped from the
back and moved to `DELETING`; the child list ends empty.  The second
component is the list of removed children in processing order. -/
def clearAllChildren (cs : List FTree) : List FTree × List FTree :=
  ([], cs.reverse.map (fun ch => changeNodeStateT ch NodeState.DELETING))

/-- `FileTreeNode::updateFileNodeData`, acting on the receiving node's
subtree.  Folder contents become known; a list with at most one entry
(just ".") clears all children; otherwise unmatched children are purged,
every entry is inserted, and all children are made visible.  Each
invisible child's `setNodeVisible` also calls `setNodeVisible` on this
node; the returned flag reports whether that flipped this node from
invisible to visible, in which case the caller propagates visibility to
the ancestors (`propagateAt`).  Intermediate `recomputeNodeState` calls
on this node are superseded by the final one, which reads the same final
field values. -/
def updateFileNodeData (t : FTree) (newDataList : List FileMetaData) : FTree × Bool :=
  match t with
  | .node c cs =>
    let c1 := { c with folderContentsKnown := true }
    if newDataList.length ≤ 1 then
      (recomputeNodeState (.node c1 (clearAllChildren cs).1), false)
    else
      let cs1 := (purgeUnmatchedChildren cs newDataList).1
      let cs2 := newDataList.foldl insertFile cs1
      let anyNewlyVisible := cs2.any (fun ch => !ch.core.nodeVisible)
      let cs3 := cs2.map childSetVisible
      let becameVisible := anyNewlyVisible && !c1.nodeVisible
      let c2 := if becameVisible then { c1 with nodeVisible := true } else c1
      (recomputeNodeState (.node c2 cs3), becameVisible)

theorem setSizeT_childKey (ch : FTree) (n : Nat) :
    childKey (setSizeT ch n) = childKey ch := rfl

theorem setSizeT_children (ch : FTree) (n : Nat) :
    (setSizeT ch n).children = ch.children := rfl

theorem setSizeT_size (ch : FTree) (n : Nat) :
    (setSizeT ch n).core.fileData.getSize = n := rfl

theorem setSizeT_nodeVisible (ch : FTree) (n : Nat) :
    (setSizeT ch n).core.nodeVisible = ch.core.nodeVisible := rfl

theorem mkChildNode_childKey (e : FileMetaData) :
    childKey (mkChildNode e) = entryKey e := by
  simp only [mkChildNode, childKey, entryKey, recomputeNodeState]
  split
  · rfl
  · simp only [FTree.core_node, changeNodeStateCore_fileData]

theorem mkChildNode_core_fileData (e : FileMetaData) :
    (mkChildNode e).core.fileData = e := by
  simp only [mkChildNode, recomputeNodeState]
  split
  · rfl
  · simp only [FTree.core_node, changeNodeStateCore_fileData]

theorem mkChildNode_children (e : FileMetaData) :
    (mkChildNode e).children = [] := by
  simp only [mkChildNode, recomputeNodeState]
  split <;> rfl

theorem mkChildNode_nodeVisible (e : FileMetaData) :
    (mkChildNode e).core.nodeVisible = false := by
  simp only [mkChildNode, recomputeNodeState]
  split
  · rfl
  · simp only [FTree.core_node, changeNodeStateCore_nodeVisible]

theorem mkChildNode_matches (e : FileMetaData) :
    entryMatchesChild e (mkChildNode e) = true := by
  rw [entryMatchesChild_iff_key, mkChildNode_childKey]

theorem entryMatchesChild_of_key_eq {e : FileMetaData} {ch ch' : FTree}
    (h : childKey ch' = childKey ch) :
    entryMatchesChild e ch' = entryMatchesChild e ch := by
  by_cases hm : entryMatchesChild e ch = true
  · rw [hm, entryMatchesChild_iff_key]
    rw [entryMatchesChild_iff_key] at hm
    exact hm.trans h.symm
  · simp only [Bool.not_eq_true] at hm
    rw [hm]
    by_contra hc
    simp only [Bool.not_eq_false] at hc
    rw [entryMatchesChild_iff_key] at hc
    have hmt : entryMatchesChild e ch = true := by
      rw [entryMatchesChild_iff_key]
      exact hc.trans h
    rw [hmt] at hm
    exact absurd hm (by simp)

theorem childMatchesList_iff (ch : FTree) (l : List FileMetaData) :
    childMatchesList ch l = true ↔
      ∃ e ∈ l, e.getFileName ≠ "." ∧ entryMatchesChild e ch = true := by
  simp [childMatchesList, List.any_eq_true]

theorem childMatchesList_of_key_eq {ch ch' : FTree} (l : List FileMetaData)
    (h : childKey ch' = childKey ch) :
    childMatchesList ch' l = childMatchesList ch l := by
  rw [Bool.eq_iff_iff, childMatchesList_iff, childMatchesList_iff]
  constructor
  · rintro ⟨e, he, hd, hm⟩
    exact ⟨e, he, hd, by rwa [entryMatchesChild_of_key_eq h] at hm⟩
  · rintro ⟨e, he, hd, hm⟩
    exact ⟨e, he, hd, by rwa [entryMatchesChild_of_key_eq h]⟩

theorem childSetVisible_nodeVisible (ch : FTree) :
    (childSetVisible ch).core.nodeVisible = true := by
  unfold childSetVisible
  by_cases h : ch.core.nodeVisible
  · simp [h]
  · simp only [h, if_false, Bool.false_eq_true]
    cases hc : ch.children with
    | nil =>
      simp only [recomputeNodeState]
      split
      · simp
      · simp [changeNodeStateCore_nodeVisible]
    | cons a l =>
      simp only [recomputeNodeState]
      split
      · simp
      · simp [changeNodeStateCore_nodeVisible]

theorem childSetVisible_childKey (ch : FTree) :
    childKey (childSetVisible ch) = childKey ch := by
  unfold childSetVisible
  split
  · rfl
  · simp only [childKey, recomputeNodeState]
    split
    · rfl
    · simp only [FTree.core_node, changeNodeStateCore_fileData]

theorem childSetVisible_fileData (ch : FTree) :
    (childSetVisible ch).core.fileData = ch.core.fileData := by
  unfold childSetVisible
  split
  · rfl
  · simp only [recomputeNodeState]
    split
    · rfl
    · simp only [FTree.core_node, changeNodeStateCore_fileData]

theorem childSetVisible_children (ch : FTree) :
    (childSetVisible ch).children = ch.children := by
  unfold childSetVisible
  split
  · rfl
  · rw [recomputeNodeState_children]
    rfl

theorem changeNodeStateT_fileData (ch : FTree) (s : NodeState) :
    (changeNodeStateT ch s).core.fileData = ch.core.fileData := by
  simp only [changeNodeStateT, FTree.core_node, changeNodeStateCore_fileData]

theorem changeNodeStateT_deleting (ch : FTree) :
    (changeNodeStateT ch NodeState.DELETING).core.myState = NodeState.DELETING := by
  simp only [changeNodeStateT, FTree.core_node, changeNodeStateCore_myState_deleting]

/-- The double reversal of `purgeUnmatchedChildren` amounts to an
order-preserving filter of the child list. -/
theorem purgeUnmatchedChildren_fst (cs : List FTree) (l : List FileMetaData) :
    (purgeUnmatchedChildren cs l).1 = cs.filter (fun ch => childMatchesList ch l) := by
  unfold purgeUnmatchedChildren
  by_cases h : cs.isEmpty
  · rw [if_pos h]
    rw [List.isEmpty_iff] at h
    subst h
    rfl
  · rw [if_neg h]
    simp only [List.filter_reverse, List.reverse_reverse]

theorem purgeUnmatchedChildren_sublist (cs : List FTree) (l : List FileMetaData) :
    List.Sublist (purgeUnmatchedChildren cs l).1 cs := by
  rw [purgeUnmatchedChildren_fst]
  exact List.filter_sublist cs

theorem purgeUnmatchedChildren_snd_deleting (cs : List FTree) (l : List FileMetaData) :
    ∀ d ∈ (purgeUnmatchedChildren cs l).2, d.core.myState = NodeState.DELETING := by
  unfold purgeUnmatchedChildren
  by_cases h : cs.isEmpty
  · rw [if_pos h]
    intro d hd
    exact absurd hd (List.not_mem_nil d)
  · rw [if_neg h]
    intro d hd
    simp only [List.mem_map] at hd
    obtain ⟨ch, _, rfl⟩ := hd
    exact changeNodeStateT_deleting ch

theorem purgeUnmatchedChildren_snd_unmatched (cs : List FTree) (l : List FileMetaData) :
    ∀ d ∈ (purgeUnmatchedChildren cs l).2,
      ∃ ch ∈ cs, childMatchesList ch l = false ∧ d = changeNodeStateT ch NodeState.DELETING := by
  unfold purgeUnmatchedChildren
  by_cases h : cs.isEmpty
  · rw [if_pos h]
    intro d hd
    exact absurd hd (List.not_mem_nil d)
  · rw [if_neg h]
    intro d hd
    simp only [List.mem_map, List.mem_filter, List.mem_reverse, Bool.not_eq_true'] at hd
    obtain ⟨ch, ⟨hmem, hfalse⟩, rfl⟩ := hd
    exact ⟨ch, hmem, hfalse, rfl⟩

/-- Membership in an `insertFileGo` result: every member is either an
untouched original child that does not match the entry, or the (unique,
given distinct keys) matching child with its size now equal to the
entry's size, or the freshly constructed node when nothing matched. -/
theorem insertFileGo_mem {cur : List FTree} {e : FileMetaData}
    (hnd : (cur.map childKey).Nodup) :
    ∀ ch' ∈ insertFileGo cur e,
      (ch' ∈ cur ∧ entryMatchesChild e ch' = false) ∨
      (∃ ch ∈ cur, entryMatchesChild e ch = true ∧ childKey ch' = childKey ch ∧
        ch'.children = ch.children ∧ ch'.core.nodeVisible = ch.core.nodeVisible ∧
        ch'.core.fileData.getSize = e.getSize) ∨
      (cur.any (fun ch => entryMatchesChild e ch) = false ∧ ch' = mkChildNode e) := by
  induction cur with
  | nil =>
    intro ch' hmem
    simp only [insertFileGo, List.mem_singleton] at hmem
    exact Or.inr (Or.inr ⟨rfl, hmem⟩)
  | cons ch cur ih =>
    intro ch' hmem
    simp only [List.map_cons, List.nodup_cons] at hnd
    obtain ⟨hknotin, hndtail⟩ := hnd
    simp only [insertFileGo] at hmem
    by_cases hm : entryMatchesChild e ch = true
    · rw [if_pos hm] at hmem
      rcases List.mem_cons.mp hmem with hup | htail
      · refine Or.inr (Or.inl ⟨ch, List.mem_cons_self ch cur, hm, ?_⟩)
        subst hup
        by_cases hs : e.getSize ≠ ch.core.fileData.getSize
        · rw [if_pos hs]
          exact ⟨setSizeT_childKey ch _, setSizeT_children ch _,
            setSizeT_nodeVisible ch _, setSizeT_size ch _⟩
        · rw [if_neg hs]
          simp only [ne_eq, Not.imp] at hs
          push_neg at hs
          exact ⟨rfl, rfl, rfl, hs.symm⟩
      · -- a later member cannot match `e`: its key differs from `ch`'s
        refine Or.inl ⟨List.mem_cons_of_mem ch htail, ?_⟩
        by_contra hc
        simp only [Bool.not_eq_false] at hc
        rw [entryMatchesChild_iff_key] at hc hm
        exact hknotin (by
          rw [hm.symm.trans hc]
          exact List.mem_map_of_mem childKey htail)
    · simp only [Bool.not_eq_true] at hm
      rw [if_neg (by simp [hm])] at hmem
      rcases List.mem_cons.mp hmem with hhead | htail
      · subst hhead
        exact Or.inl ⟨List.mem_cons_self ch' cur, hm⟩
      · rcases ih hndtail ch' htail with ⟨h1, h2⟩ | ⟨c0, hc0, rest⟩ | ⟨hany, hnew⟩
        · exact Or.inl ⟨List.mem_cons_of_mem ch h1, h2⟩
        · exact Or.inr (Or.inl ⟨c0, List.mem_cons_of_mem ch hc0, rest⟩)
        · exact Or.inr (Or.inr ⟨by simp [hany, hm], hnew⟩)

/-- `insertFileGo` leaves the key list unchanged when a child matches,
and appends exactly the entry's key otherwise — so a matching entry
never creates a duplicate child. -/
theorem insertFileGo_keys (cur : List FTree) (e : FileMetaData) :
    (insertFileGo cur e).map childKey =
      if cur.any (fun ch => entryMatchesChild e ch) then cur.map childKey
      else cur.map childKey ++ [entryKey e] := by
  induction cur with
  | nil =>
    simp [insertFileGo, mkChildNode_childKey]
  | cons ch cur ih =>
    by_cases hm : entryMatchesChild e ch = true
    · simp only [insertFileGo, if_pos hm, List.any_cons, hm, Bool.true_or, List.map_cons,
        if_true]
      split
      · simp [setSizeT_childKey]
      · rfl
    · simp only [Bool.not_eq_true] at hm
      simp only [insertFileGo, hm, Bool.false_eq_true, if_false, List.any_cons, Bool.false_or,
        List.map_cons, ih]
      split <;> rfl

theorem insertFileGo_length_of_match (cur : List FTree) (e : FileMetaData)
    (h : cur.any (fun ch => entryMatchesChild e ch) = true) :
    (insertFileGo cur e).length = cur.length := by
  have hk := insertFileGo_keys cur e
  rw [if_pos h] at hk
  have := congrArg List.length hk
  simpa using this

theorem insertFileGo_key_mem (cur : List FTree) (e : FileMetaData) :
    ∀ ch ∈ cur, ∃ ch' ∈ insertFileGo cur e,
      childKey ch' = childKey ch ∧ ch'.children = ch.children := by
  induction cur with
  | nil =>
    intro ch h
    exact absurd h (List.not_mem_nil ch)
  | cons c0 cur ih =>
    intro ch hch
    simp only [insertFileGo]
    by_cases hm : entryMatchesChild e c0 = true
    · rw [if_pos hm]
      rcases List.mem_cons.mp hch with rfl | htail
      · refine ⟨_, List.mem_cons_self _ cur, ?_⟩
        split
        · exact ⟨setSizeT_childKey ch _, setSizeT_children ch _⟩
        · exact ⟨rfl, rfl⟩
      · exact ⟨ch, List.mem_cons_of_mem _ htail, rfl, rfl⟩
    · simp only [Bool.not_eq_true] at hm
      rw [if_neg (by simp [hm])]
      rcases List.mem_cons.mp hch with rfl | htail
      · exact ⟨ch, List.mem_cons_self _ _, rfl, rfl⟩
      · obtain ⟨ch', hmem, hkey, hcs⟩ := ih ch htail
        exact ⟨ch', List.mem_cons_of_mem _ hmem, hkey, hcs⟩

theorem insertFileGo_cover (cur : List FTree) (e : FileMetaData) :
    ∃ ch' ∈ insertFileGo cur e, entryMatchesChild e ch' = true := by
  induction cur with
  | nil =>
    exact ⟨mkChildNode e, List.mem_singleton_self _, mkChildNode_matches e⟩
  | cons c0 cur ih =>
    simp only [insertFileGo]
    by_cases hm : entryMatchesChild e c0 = true
    · rw [if_pos hm]
      refine ⟨_, List.mem_cons_self _ cur, ?_⟩
      split
      · rw [entryMatchesChild_of_key_eq (setSizeT_childKey c0 _)]
        exact hm
      · exact hm
    · simp only [Bool.not_eq_true] at hm
      rw [if_neg (by simp [hm])]
      obtain ⟨ch', hmem, hmatch⟩ := ih
      exact ⟨ch', List.mem_cons_of_mem _ hmem, hmatch⟩

theorem insertFileGo_nodup {cur : List FTree} (e : FileMetaData)
    (hnd : (cur.map childKey).Nodup) :
    ((insertFileGo cur e).map childKey).Nodup := by
  rw [insertFileGo_keys]
  split
  · exact hnd
  · next hany =>
    rw [List.nodup_append]
    refine ⟨hnd, List.nodup_singleton _, ?_⟩
    intro k hk hk2
    simp only [List.mem_singleton] at hk2
    subst hk2
    simp only [List.mem_map] at hk
    obtain ⟨ch, hch, hkey⟩ := hk
    exact hany (List.any_eq_true.mpr ⟨ch, hch, by rw [entryMatchesChild_iff_key]; exact hkey.symm⟩)

theorem insertFile_of_dot {e : FileMetaData} (cs : List FTree)
    (h : e.getFileName = ".") : insertFile cs e = cs := by
  simp [insertFile, h]

theorem insertFile_of_nondot {e : FileMetaData} (cs : List FTree)
    (h : e.getFileName ≠ ".") : insertFile cs e = insertFileGo cs e := by
  simp [insertFile, h]

theorem insertFile_nodup {cur : List FTree} (e : FileMetaData)
    (hnd : (cur.map childKey).Nodup) :
    ((insertFile cur e).map childKey).Nodup := by
  by_cases h : e.getFileName = "."
  · rw [insertFile_of_dot cur h]
    exact hnd
  · rw [insertFile_of_nondot cur h]
    exact insertFileGo_nodup e hnd

theorem insertFile_key_mem (cur : List FTree) (e : FileMetaData) :
    ∀ ch ∈ cur, ∃ ch' ∈ insertFile cur e,
      childKey ch' = childKey ch ∧ ch'.children = ch.children := by
  by_cases h : e.getFileName = "."
  · rw [insertFile_of_dot cur h]
    intro ch hch
    exact ⟨ch, hch, rfl, rfl⟩
  · rw [insertFile_of_nondot cur h]
    exact insertFileGo_key_mem cur e

theorem insertFile_mem_key_src (cur : List FTree) (e : FileMetaData) :
    ∀ ch' ∈ insertFile cur e,
      (∃ ch ∈ cur, childKey ch' = childKey ch) ∨
      (e.getFileName ≠ "." ∧ childKey ch' = entryKey e) := by
  by_cases h : e.getFileName = "."
  · rw [insertFile_of_dot cur h]
    intro ch' hch'
    exact Or.inl ⟨ch', hch', rfl⟩
  · rw [insertFile_of_nondot cur h]
    intro ch' hch'
    induction cur with
    | nil =>
      simp only [insertFileGo, List.mem_singleton] at hch'
      subst hch'
      exact Or.inr ⟨h, mkChildNode_childKey e⟩
    | cons c0 cur ih =>
      simp only [insertFileGo] at hch'
      by_cases hm : entryMatchesChild e c0 = true
      · rw [if_pos hm] at hch'
        rcases List.mem_cons.mp hch' with hup | htail
        · subst hup
          refine Or.inl ⟨c0, List.mem_cons_self _ _, ?_⟩
          split
          · exact setSizeT_childKey c0 _
          · rfl
        · exact Or.inl ⟨ch', List.mem_cons_of_mem _ htail, rfl⟩
      · simp only [Bool.not_eq_true] at hm
        rw [if_neg (by simp [hm])] at hch'
        rcases List.mem_cons.mp hch' with rfl | htail
        · exact Or.inl ⟨ch', List.mem_cons_self _ _, rfl⟩
        · rcases ih htail with ⟨ch, hch, hkey⟩ | hr
          · exact Or.inl ⟨ch, List.mem_cons_of_mem _ hch, hkey⟩
          · exact Or.inr hr

theorem foldl_insertFile_key_mem (es : List FileMetaData) :
    ∀ (cur : List FTree), ∀ ch ∈ cur, ∃ ch' ∈ es.foldl insertFile cur,
      childKey ch' = childKey ch ∧ ch'.children = ch.children := by
  induction es with
  | nil =>
    intro cur ch hch
    exact ⟨ch, hch, rfl, rfl⟩
  | cons e rest ih =>
    intro cur ch hch
    obtain ⟨ch1, hch1, hkey1, hcs1⟩ := insertFile_key_mem cur e ch hch
    obtain ⟨ch2, hch2, hkey2, hcs2⟩ := ih (insertFile cur e) ch1 hch1
    exact ⟨ch2, hch2, hkey2.trans hkey1, hcs2.trans hcs1⟩

theorem foldl_insertFile_nodup (es : List FileMetaData) :
    ∀ (cur : List FTree), (cur.map childKey).Nodup →
      ((es.foldl insertFile cur).map childKey).Nodup := by
  induction es with
  | nil =>
    intro cur h
    exact h
  | cons e rest ih =>
    intro cur h
    exact ih (insertFile cur e) (insertFile_nodup e h)

theorem foldl_insertFile_cover (es : List FileMetaData) :
    ∀ (cur : List FTree), ∀ e ∈ es, e.getFileName ≠ "." →
      ∃ ch' ∈ es.foldl insertFile cur, entryMatchesChild e ch' = true := by
  induction es with
  | nil =>
    intro cur e he
    exact absurd he (List.not_mem_nil e)
  | cons e0 rest ih =>
    intro cur e he hnd
    rcases List.mem_cons.mp he with rfl | htail
    · -- the entry is inserted now and its match survives the rest of the fold
      simp only [List.foldl_cons, insertFile_of_nondot cur hnd]
      obtain ⟨ch1, hch1, hm1⟩ := insertFileGo_cover cur e
      obtain ⟨ch2, hch2, hkey2, _⟩ :=
        foldl_insertFile_key_mem rest (insertFileGo cur e) ch1 hch1
      refine ⟨ch2, hch2, ?_⟩
      rw [entryMatchesChild_of_key_eq hkey2]
      exact hm1
    · exact ih (insertFile cur e0) e htail hnd

theorem foldl_insertFile_mem_key_src (es : List FileMetaData) :
    ∀ (cur : List FTree), ∀ ch' ∈ es.foldl insertFile cur,
      (∃ ch ∈ cur, childKey ch' = childKey ch) ∨
      (∃ e ∈ es, e.getFileName ≠ "." ∧ childKey ch' = entryKey e) := by
  induction es with
  | nil =>
    intro cur ch' hch'
    exact Or.inl ⟨ch', hch', rfl⟩
  | cons e rest ih =>
    intro cur ch' hch'
    rcases ih (insertFile cur e) ch' hch' with ⟨ch1, hch1, hkey1⟩ | ⟨e1, he1, h1, h2⟩
    · rcases insertFile_mem_key_src cur e ch1 hch1 with ⟨ch0, hch0, hkey0⟩ | ⟨hd, hk⟩
      · exact Or.inl ⟨ch0, hch0, hkey1.trans hkey0⟩
      · exact Or.inr ⟨e, List.mem_cons_self _ _, hd, hkey1.trans hk⟩
    · exact Or.inr ⟨e1, List.mem_cons_of_mem _ he1, h1, h2⟩

/-- Size synchronisation along the insertion fold: provided the children
have pairwise distinct keys and each is either still awaiting a matching
entry or already carries a delivered size, every child after the fold
carries the size delivered by some matching non-"." entry of the full
list. -/
theorem foldl_insertFile_size (full : List FileMetaData) :
    ∀ (es : List FileMetaData) (cur : List FTree),
      (∀ e ∈ es, e ∈ full) →
      (cur.map childKey).Nodup →
      (∀ ch ∈ cur,
        (∃ e ∈ es, e.getFileName ≠ "." ∧ entryMatchesChild e ch = true) ∨
        (∃ e ∈ full, e.getFileName ≠ "." ∧ entryMatchesChild e ch = true ∧
          ch.core.fileData.getSize = e.getSize)) →
      ∀ ch' ∈ es.foldl insertFile cur,
        ∃ e ∈ full, e.getFileName ≠ "." ∧ entryMatchesChild e ch' = true ∧
          ch'.core.fileData.getSize = e.getSize := by
  intro es
  induction es with
  | nil =>
    intro cur _ _ hinv ch' hch'
    rcases hinv ch' hch' with ⟨e, he, _⟩ | hgood
    · exact absurd he (List.not_mem_nil e)
    · exact hgood
  | cons e rest ih =>
    intro cur hsub hnd hinv
    simp only [List.foldl_cons]
    refine ih (insertFile cur e) (fun e' he' => hsub e' (List.mem_cons_of_mem _ he')) (insertFile_nodup e hnd) ?_
    intro ch' hch'
    by_cases hdot : e.getFileName = "."
    · rw [insertFile_of_dot cur hdot] at hch'
      rcases hinv ch' hch' with ⟨e1, he1, hd1, hm1⟩ | hgood
      · rcases List.mem_cons.mp he1 with rfl | htail
        · exact absurd hdot hd1
        · exact Or.inl ⟨e1, htail, hd1, hm1⟩
      · exact Or.inr hgood
    · rw [insertFile_of_nondot cur hdot] at hch'
      rcases insertFileGo_mem hnd ch' hch' with
        ⟨hmem, hnom⟩ | ⟨ch0, hch0, hm0, hkey, _, _, hsz⟩ | ⟨_, rfl⟩
      · rcases hinv ch' hmem with ⟨e1, he1, hd1, hm1⟩ | hgood
        · rcases List.mem_cons.mp he1 with rfl | htail
          · rw [hm1] at hnom
            exact absurd hnom (by simp)
          · exact Or.inl ⟨e1, htail, hd1, hm1⟩
        · exact Or.inr hgood
      · refine Or.inr ⟨e, hsub e (List.mem_cons_self _ _), hdot, ?_, hsz⟩
        rw [entryMatchesChild_of_key_eq hkey]
        exact hm0
      · refine Or.inr ⟨e, hsub e (List.mem_cons_self _ _), hdot, mkChildNode_matches e, ?_⟩
        rw [mkChildNode_core_fileData]

theorem recomputeNodeState_folderContentsKnown (c : NodeCore) (cs : List FTree) :
    (recomputeNodeState (.node c cs)).core.folderContentsKnown = c.folderContentsKnown := by
  simp only [recomputeNodeState]
  split
  · rfl
  · simp only [FTree.core_node, changeNodeStateCore_folderContentsKnown]

theorem recomputeNodeState_nodeVisible (c : NodeCore) (cs : List FTree) :
    (recomputeNodeState (.node c cs)).core.nodeVisible = c.nodeVisible := by
  simp only [recomputeNodeState]
  split
  · rfl
  · simp only [FTree.core_node, changeNodeStateCore_nodeVisible]

theorem recomputeNodeState_fileData (c : NodeCore) (cs : List FTree) :
    (recomputeNodeState (.node c cs)).core.fileData = c.fileData := by
  simp only [recomputeNodeState]
  split
  · rfl
  · simp only [FTree.core_node, changeNodeStateCore_fileData]

theorem recomputeNodeState_lsTask (c : NodeCore) (cs : List FTree) :
    (recomputeNodeState (.node c cs)).core.lsTask = c.lsTask := by
  simp only [recomputeNodeState]
  split
  · rfl
  · simp only [FTree.core_node, changeNodeStateCore_lsTask]

theorem recomputeNodeState_bufferTask (c : NodeCore) (cs : List FTree) :
    (recomputeNodeState (.node c cs)).core.bufferTask = c.bufferTask := by
  simp only [recomputeNodeState]
  split
  · rfl
  · simp only [FTree.core_node, changeNodeStateCore_bufferTask]

theorem recomputeNodeState_fileDataBuffer (c : NodeCore) (cs : List FTree) :
    (recomputeNodeState (.node c cs)).core.fileDataBuffer = c.fileDataBuffer := by
  simp only [recomputeNodeState]
  split
  · rfl
  · simp only [FTree.core_node, changeNodeStateCore_fileDataBuffer]

theorem purgeUnmatchedChildren_snd_complete (cs : List FTree) (l : List FileMetaData) :
    ∀ ch ∈ cs, childMatchesList ch l = false →
      changeNodeStateT ch NodeState.DELETING ∈ (purgeUnmatchedChildren cs l).2 := by
  intro ch hch hfalse
  unfold purgeUnmatchedChildren
  have hne : ¬ cs.isEmpty := by
    intro h
    rw [List.isEmpty_iff] at h
    subst h
    exact absurd hch (List.not_mem_nil ch)
  rw [if_neg hne]
  refine List.mem_map_of_mem _ (List.mem_filter.mpr ⟨List.mem_reverse.mpr hch, ?_⟩)
  simp [hfalse]

theorem updateFileNodeData_children_long (c : NodeCore) (cs : List FTree)
    (list : List FileMetaData) (hlen : 1 < list.length) :
    ((updateFileNodeData (.node c cs) list).1).children =
      (list.foldl insertFile (purgeUnmatchedChildren cs list).1).map childSetVisible := by
  simp only [updateFileNodeData, if_neg (not_le.mpr hlen)]
  rw [recomputeNodeState_children]
  rfl

theorem updateFileNodeData_folderContentsKnown (c : NodeCore) (cs : List FTree)
    (list : List FileMetaData) :
    ((updateFileNodeData (.node c cs) list).1).core.folderContentsKnown = true := by
  simp only [updateFileNodeData]
  split
  · rw [recomputeNodeState_folderContentsKnown]
  · split
    · rw [recomputeNodeState_folderContentsKnown]
    · rw [recomputeNodeState_folderContentsKnown]

/-- C2: delivering a `GOOD` ls listing with more than one entry to a
directory node (after the control-node check, `deliverLSdata` calls
`updateFileNodeData`) synchronises the child set with the listing:
folder contents become known; all surviving children are visible; every
child matching a non-"." entry by full path and file type is kept, with
its subtree intact; no surviving child carries the key of an unmatched
child; each unmatched child is moved to `DELETING` and dropped from the
child list; every non-"." entry has a matching child afterwards; and
every surviving child carries the size delivered by a matching entry.
The children are assumed pairwise distinct by (full path, file type),
which child creation itself guarantees. -/
theorem claim_C2_ls_listing_sync (c : NodeCore) (cs : List FTree)
    (list : List FileMetaData) (hlen : 1 < list.length)
    (hnd : (cs.map childKey).Nodup) :
    ((updateFileNodeData (.node c cs) list).1).core.folderContentsKnown = true ∧
    (∀ ch' ∈ ((updateFileNodeData (.node c cs) list).1).children,
      ch'.core.nodeVisible = true) ∧
    (∀ ch ∈ cs, childMatchesList ch list = true →
      ∃ ch' ∈ ((updateFileNodeData (.node c cs) list).1).children,
        childKey ch' = childKey ch ∧ ch'.children = ch.children) ∧
    (∀ ch ∈ cs, childMatchesList ch list = false →
      (∀ ch' ∈ ((updateFileNodeData (.node c cs) list).1).children,
        childKey ch' ≠ childKey ch) ∧
      changeNodeStateT ch NodeState.DELETING ∈ (purgeUnmatchedChildren cs list).2) ∧
    (∀ d ∈ (purgeUnmatchedChildren cs list).2, d.core.myState = NodeState.DELETING) ∧
    (∀ e ∈ list, e.getFileName ≠ "." →
      ∃ ch' ∈ ((updateFileNodeData (.node c cs) list).1).children,
        entryMatchesChild e ch' = true) ∧
    (∀ ch' ∈ ((updateFileNodeData (.node c cs) list).1).children,
      ∃ e ∈ list, e.getFileName ≠ "." ∧ entryMatchesChild e ch' = true ∧
        ch'.core.fileData.getSize = e.getSize) := by
  have hch := updateFileNodeData_children_long c cs list hlen
  have hnd1 : ((purgeUnmatchedChildren cs list).1.map childKey).Nodup := by
    refine List.Nodup.sublist ?_ hnd
    exact (purgeUnmatchedChildren_sublist cs list).map childKey
  have hcs1mem : ∀ ch ∈ (purgeUnmatchedChildren cs list).1,
      ch ∈ cs ∧ childMatchesList ch list = true := by
    intro ch h
    rw [purgeUnmatchedChildren_fst] at h
    exact ⟨(List.mem_filter.mp h).1, (List.mem_filter.mp h).2⟩
  refine ⟨updateFileNodeData_folderContentsKnown c cs list, ?_, ?_, ?_, purgeUnmatchedChildren_snd_deleting cs list, ?_, ?_⟩
  · intro ch' hch'
    rw [hch] at hch'
    obtain ⟨ch2, _, rfl⟩ := List.mem_map.mp hch'
    exact childSetVisible_nodeVisible ch2
  · intro ch hchcs hmatch
    have hcs1 : ch ∈ (purgeUnmatchedChildren cs list).1 := by
      rw [purgeUnmatchedChildren_fst]
      exact List.mem_filter.mpr ⟨hchcs, hmatch⟩
    obtain ⟨ch2, hch2, hkey2, hcs2⟩ :=
      foldl_insertFile_key_mem list (purgeUnmatchedChildren cs list).1 ch hcs1
    refine ⟨childSetVisible ch2, ?_, ?_, ?_⟩
    · rw [hch]
      exact List.mem_map_of_mem childSetVisible hch2
    · rw [childSetVisible_childKey]
      exact hkey2
    · rw [childSetVisible_children]
      exact hcs2
  · intro ch hchcs hfalse
    refine ⟨?_, purgeUnmatchedChildren_snd_complete cs list ch hchcs hfalse⟩
    intro ch' hch' hkeyeq
    rw [hch] at hch'
    obtain ⟨ch2, hch2, rfl⟩ := List.mem_map.mp hch'
    rw [childSetVisible_childKey] at hkeyeq
    rcases foldl_insertFile_mem_key_src list (purgeUnmatchedChildren cs list).1 ch2 hch2 with
      ⟨ch0, hch0, hkey0⟩ | ⟨e, hel, hed, hkeye⟩
    · obtain ⟨_, hm0⟩ := hcs1mem ch0 hch0
      have hkk : childKey ch = childKey ch0 := hkeyeq.symm.trans hkey0
      rw [childMatchesList_of_key_eq list hkk, hm0] at hfalse
      exact absurd hfalse (by simp)
    · have : childMatchesList ch list = true := by
        rw [childMatchesList_iff]
        refine ⟨e, hel, hed, ?_⟩
        rw [entryMatchesChild_iff_key]
        exact hkeye.symm.trans hkeyeq
      rw [this] at hfalse
      exact absurd hfalse (by simp)
  · intro e hel hed
    obtain ⟨ch2, hch2, hm2⟩ :=
      foldl_insertFile_cover list (purgeUnmatchedChildren cs list).1 e hel hed
    refine ⟨childSetVisible ch2, ?_, ?_⟩
    · rw [hch]
      exact List.mem_map_of_mem childSetVisible hch2
    · rw [entryMatchesChild_of_key_eq (childSetVisible_childKey ch2)]
      exact hm2
  · intro ch' hch'
    rw [hch] at hch'
    obtain ⟨ch2, hch2, rfl⟩ := List.mem_map.mp hch'
    have hsz := foldl_insertFile_size list list (purgeUnmatchedChildren cs list).1
      (fun e he => he) hnd1 ?_ ch2 hch2
    · obtain ⟨e, hel, hed, hm, hs⟩ := hsz
      refine ⟨e, hel, hed, ?_, ?_⟩
      · rw [entryMatchesChild_of_key_eq (childSetVisible_childKey ch2)]
        exact hm
      · rw [show (childSetVisible ch2).core.fileData = ch2.core.fileData from
          childSetVisible_fileData ch2]
        exact hs
    · intro ch hchm
      obtain ⟨_, hmatch⟩ := hcs1mem ch hchm
      rw [childMatchesList_iff] at hmatch
      exact Or.inl hmatch

def c2wCore : NodeCore :=
  { fileData := { fullPath := "/r", fileType := FileType.DIR, size := 0 }
    myState := NodeState.FOLDER_CONTENTS_LOADING
    nodeVisible := true }

def c2wDot : FileMetaData :=
  { fullPath := "/r/.", fileType := FileType.DIR, size := 0 }

def c2wFile : FileMetaData :=
  { fullPath := "/r/a.txt", fileType := FileType.FILE, size := 12 }

theorem claim_C2_witness :
    ((updateFileNodeData (.node c2wCore []) [c2wDot, c2wFile]).1).core.folderContentsKnown = true ∧
    (∀ ch' ∈ ((updateFileNodeData (.node c2wCore []) [c2wDot, c2wFile]).1).children,
      ch'.core.nodeVisible = true) :=
  have h := claim_C2_ls_listing_sync c2wCore [] [c2wDot, c2wFile] (by decide)
    (by simp)
  ⟨h.1, h.2.1⟩

theorem updateFileNodeData_children_short (t : FTree) (list : List FileMetaData)
    (hlen : list.length ≤ 1) :
    ((updateFileNodeData t list).1).children = [] := by
  cases t with
  | node c cs =>
    simp only [updateFileNodeData, if_pos hlen]
    rw [recomputeNodeState_children]
    rfl

theorem map_childKey_childSetVisible (l : List FTree) :
    (l.map childSetVisible).map childKey = l.map childKey := by
  rw [List.map_map]
  exact List.map_congr_left (fun ch _ => childSetVisible_childKey ch)

theorem purgeUnmatchedChildren_fst_of_all_matched (cs : List FTree)
    (l : List FileMetaData) (h : ∀ ch ∈ cs, childMatchesList ch l = true) :
    (purgeUnmatchedChildren cs l).1 = cs := by
  rw [purgeUnmatchedChildren_fst]
  exact List.filter_eq_self.mpr h

/-- When every non-"." entry already has a matching child, the insertion
fold only rewrites sizes: the key list — hence the child set — is
unchanged. -/
theorem foldl_insertFile_keys_of_covered (es : List FileMetaData) :
    ∀ (cur : List FTree),
      (∀ e ∈ es, e.getFileName ≠ "." → ∃ ch ∈ cur, entryMatchesChild e ch = true) →
      (es.foldl insertFile cur).map childKey = cur.map childKey := by
  induction es with
  | nil =>
    intro cur _
    rfl
  | cons e rest ih =>
    intro cur hcov
    simp only [List.foldl_cons]
    by_cases hdot : e.getFileName = "."
    · rw [insertFile_of_dot cur hdot]
      exact ih cur (fun e' he' => hcov e' (List.mem_cons_of_mem _ he'))
    · rw [insertFile_of_nondot cur hdot]
      obtain ⟨ch, hch, hm⟩ := hcov e (List.mem_cons_self _ _) hdot
      have hany : cur.any (fun ch => entryMatchesChild e ch) = true :=
        List.any_eq_true.mpr ⟨ch, hch, hm⟩
      have hkeys : (insertFileGo cur e).map childKey = cur.map childKey := by
        rw [insertFileGo_keys, if_pos hany]
      rw [← hkeys]
      refine ih (insertFileGo cur e) ?_
      intro e' he' hd'
      obtain ⟨ch', hch', hm'⟩ := hcov e' (List.mem_cons_of_mem _ he') hd'
      have : childKey ch' ∈ (insertFileGo cur e).map childKey := by
        rw [hkeys]
        exact List.mem_map_of_mem childKey hch'
      obtain ⟨ch2, hch2, hkey2⟩ := List.mem_map.mp this
      refine ⟨ch2, hch2, ?_⟩
      rw [entryMatchesChild_of_key_eq hkey2]
      exact hm'

/-- After a long-listing update every surviving child matches some
non-"." entry of the delivered list. -/
theorem updateFileNodeData_children_matched (c : NodeCore) (cs : List FTree)
    (list : List FileMetaData) (hlen : 1 < list.length) :
    ∀ ch' ∈ ((updateFileNodeData (.node c cs) list).1).children,
      childMatchesList ch' list = true := by
  intro ch' hch'
  rw [updateFileNodeData_children_long c cs list hlen] at hch'
  obtain ⟨ch2, hch2, rfl⟩ := List.mem_map.mp hch'
  rw [childMatchesList_of_key_eq list (childSetVisible_childKey ch2)]
  rcases foldl_insertFile_mem_key_src list (purgeUnmatchedChildren cs list).1 ch2 hch2 with
    ⟨ch0, hch0, hkey0⟩ | ⟨e, hel, hed, hkeye⟩
  · rw [purgeUnmatchedChildren_fst] at hch0
    obtain ⟨_, hm0⟩ := List.mem_filter.mp hch0
    rwa [childMatchesList_of_key_eq list hkey0]
  · rw [childMatchesList_iff]
    refine ⟨e, hel, hed, ?_⟩
    rw [entryMatchesChild_iff_key]
    exact hkeye.symm

/-- After a long-listing update every non-"." entry of the delivered
list has a matching surviving child. -/
theorem updateFileNodeData_children_cover (c : NodeCore) (cs : List FTree)
    (list : List FileMetaData) (hlen : 1 < list.length) :
    ∀ e ∈ list, e.getFileName ≠ "." →
      ∃ ch' ∈ ((updateFileNodeData (.node c cs) list).1).children,
        entryMatchesChild e ch' = true := by
  intro e hel hed
  obtain ⟨ch2, hch2, hm2⟩ :=
    foldl_insertFile_cover list (purgeUnmatchedChildren cs list).1 e hel hed
  refine ⟨childSetVisible ch2, ?_, ?_⟩
  · rw [updateFileNodeData_children_long c cs list hlen]
    exact List.mem_map_of_mem childSetVisible hch2
  · rw [entryMatchesChild_of_key_eq (childSetVisible_childKey ch2)]
    exact hm2

/-- C9: re-delivering the same listing is idempotent on the tree.  The
children kept by `purgeUnmatchedChildren` are a sublist of the original
child list (original relative order); an entry whose full path and file
type match an existing child never creates a duplicate (the child list
length is unchanged); and a second `updateFileNodeData` with the same
list leaves the child set — each child identified by its (full path,
file type) key, in order — unchanged. -/
theorem claim_C9_redelivery_idempotent (c : NodeCore) (cs : List FTree)
    (list : List FileMetaData) :
    List.Sublist (purgeUnmatchedChildren cs list).1 cs ∧
    (∀ (l : List FTree) (e : FileMetaData),
      l.any (fun ch => entryMatchesChild e ch) = true →
      (insertFileGo l e).length = l.length) ∧
    ((updateFileNodeData ((updateFileNodeData (.node c cs) list).1) list).1).children.map
        childKey =
      ((updateFileNodeData (.node c cs) list).1).children.map childKey := by
  refine ⟨purgeUnmatchedChildren_sublist cs list,
    fun l e h => insertFileGo_length_of_match l e h, ?_⟩
  by_cases hlen : list.length ≤ 1
  · rw [updateFileNodeData_children_short _ list hlen,
      updateFileNodeData_children_short _ list hlen]
  · push_neg at hlen
    cases hr : (updateFileNodeData (.node c cs) list).1 with
    | node cr csr =>
      have hmatched : ∀ ch' ∈ csr, childMatchesList ch' list = true := by
        have := updateFileNodeData_children_matched c cs list hlen
        rw [hr] at this
        exact this
      have hcover : ∀ e ∈ list, e.getFileName ≠ "." →
          ∃ ch ∈ csr, entryMatchesChild e ch = true := by
        have := updateFileNodeData_children_cover c cs list hlen
        rw [hr] at this
        exact this
      have hpurge : (purgeUnmatchedChildren csr list).1 = csr :=
        purgeUnmatchedChildren_fst_of_all_matched csr list hmatched
      rw [updateFileNodeData_children_long cr csr list hlen, hpurge,
        map_childKey_childSetVisible, FTree.children_node]
      exact foldl_insertFile_keys_of_covered list csr hcover

def c9wChild : FTree :=
  .node { fileData := { fullPath := "/r/a.txt", fileType := FileType.FILE, size := 12 }
          myState := NodeState.FILE_SPECULATE_IDLE } []

theorem claim_C9_witness :
    ([c9wChild].any (fun ch => entryMatchesChild c2wFile ch) = true) ∧
    (insertFileGo [c9wChild] c2wFile).length = [c9wChild].length :=
  ⟨by decide, (claim_C9_redelivery_idempotent c2wCore [] []).2.1 [c9wChild] c2wFile (by decide)⟩

/-- Locate the node at an index path (the functional stand-in for a
`FileTreeNode*`). -/
def getAt : FTree → List Nat → Option FTree
  | t, [] => some t
  | .node _ cs, i :: rest =>
    match cs[i]? with
    | none => none
    | some ch => getAt ch rest

/-- Rebuild the tree with the subtree at the index path transformed;
an invalid path leaves the tree unchanged (a reply can only be delivered
to a node that exists). -/
def modifyAt : FTree → List Nat → (FTree → FTree) → FTree
  | t, [], f => f t
  | .node c cs, i :: rest, f =>
    match cs[i]? with
    | none => .node c cs
    | some ch => .node c (cs.set i (modifyAt ch rest f))

/-- The upward recursion of `FileTreeNode::setNodeVisible`, expressed
top-down: the operation `f` acts on the target node and reports whether
the target flipped from invisible to visible; if so each ancestor in
turn is made visible and recomputed, stopping at the first ancestor that
is already visible (its own `setNodeVisible` returns immediately). -/
def propagateAt (f : FTree → FTree × Bool) : FTree → List Nat → FTree × Bool
  | t, [] => f t
  | .node c cs, i :: rest =>
    match cs[i]? with
    | none => (.node c cs, false)
    | some ch =>
      let res := propagateAt f ch rest
      let cs' := cs.set i res.1
      if res.2 then
        if c.nodeVisible then (.node c cs', false)
        else (recomputeNodeState (.node { c with nodeVisible := true } cs'), true)
      else (.node c cs', false)

/-- The local part of `FileTreeNode::setNodeVisible`: a visible node
returns immediately; an invisible one becomes visible and recomputes its
state, reporting the flip for upward propagation. -/
def setVisSelf (t : FTree) : FTree × Bool :=
  match t with
  | .node c cs =>
    if c.nodeVisible then (.node c cs, false)
    else (recomputeNodeState (.node { c with nodeVisible := true } cs), true)

/-- `FileTreeNode::setNodeVisible` called on the node at `loc`. -/
def setNodeVisibleAt (root : FTree) (loc : List Nat) : FTree :=
  (propagateAt setVisSelf root loc).1

def nodeFileName (t : FTree) : String :=
  t.core.fileData.getFileName

mutual

/-- `FileTreeNode::pathSearchHelperFromAnyNode` (with `stopEarly`
false), returning the index path of the found node instead of a pointer.
`pathSearchList` is `getChildNodeWithName`: the first child with the
given name and a non-`INVALID` type is followed — with no backtracking
if the deeper search fails. -/
def pathSearchIdx : FTree → List String → Option (List Nat)
  | _, [] => some []
  | .node _ cs, p :: rest =>
    match pathSearchList cs p rest with
    | none => none
    | some (i, l) => some (i :: l)

/-- See `pathSearchIdx`. -/
def pathSearchList : List FTree → String → List String → Option (Nat × List Nat)
  | [], _, _ => none
  | ch :: tl, nm, rest =>
    if nodeFileName ch = nm ∧ ch.core.fileData.getFileType ≠ FileType.INVALID then
      match pathSearchIdx ch rest with
      | none => none
      | some l => some (0, l)
    else
      match pathSearchList tl nm rest with
      | none => none
      | some (i, l) => some (i + 1, l)
end

/-- `FileTreeNode::pathSearchHelper` = `getNodeWithName`, called on the
root node: the first component of the path must be the root's own file
name, the rest is resolved through the children. -/
def getNodeWithNameIdx (root : FTree) (filename : String) : Option (List Nat) :=
  match getPathNameList filename with
  | [] => none
  | rootName :: rest =>
    if rootName = nodeFileName root then pathSearchIdx root rest else none

/-- `FileTreeNode::getControlAddress`: the containing path of the first
"." entry of the delivered list, or the empty string. -/
def getControlAddress (newDataList : List FileMetaData) : String :=
  match newDataList.find? (fun e => decide (e.getFileName = ".")) with
  | some e => e.getContainingPath
  | none => ""

/-- `FileTreeNode::verifyControlNode`: the control address must be
non-empty and must resolve, by a path search from the tree's root, to
exactly the receiving node. -/
def verifyControlNodeAt (root : FTree) (loc : List Nat)
    (newDataList : List FileMetaData) : Bool :=
  let controllerAddress := getControlAddress newDataList
  if controllerAddress = "" then false
  else decide (getNodeWithNameIdx root controllerAddress = some loc)

/-- `FileTreeNode::deliverLSdata` on the node at `loc`: the pending ls
task is cleared first; a `GOOD` reply is applied through
`updateFileNodeData` only if `verifyControlNode` accepts the listing
(otherwise only the state is recomputed); `FILE_NOT_FOUND` moves the
node to `DELETING`; any other reply state merely recomputes the state. -/
def clearLsTaskAt (root : FTree) (loc : List Nat) : FTree :=
  modifyAt root loc (fun t => .node { t.core with lsTask := none } t.children)

def deliverLSdataAt (root : FTree) (loc : List Nat) (taskState : RequestState)
    (dataList : List FileMetaData) : FTree :=
  let root1 := clearLsTaskAt root loc
  match taskState with
  | .GOOD =>
    if verifyControlNodeAt root1 loc dataList = false then
      modifyAt root1 loc recomputeNodeState
    else
      (propagateAt (fun t => updateFileNodeData t dataList) root1 loc).1
  | .FILE_NOT_FOUND =>
    modifyAt root1 loc (fun t => changeNodeStateT t NodeState.DELETING)
  | _ => modifyAt root1 loc recomputeNodeState

/-- `FileTreeNode::deliverBuffData` on the node at `loc`: the pending
buffer task is cleared first; a `GOOD` reply stores the buffer through
`setFileBuffer` (a null byte array stores a null buffer), which also
makes the node visible; `FILE_NOT_FOUND` moves the node to `DELETING`;
any other reply state merely recomputes the state. -/
def clearBuffTaskAt (root : FTree) (loc : List Nat) : FTree :=
  modifyAt root loc (fun t => .node { t.core with bufferTask := none } t.children)

def deliverBuffDataAt (root : FTree) (loc : List Nat) (taskState : RequestState)
    (bufferData : Option (List Nat)) : FTree :=
  let root1 := clearBuffTaskAt root loc
  match taskState with
  | .GOOD => (propagateAt (fun t => setFileBuffer t bufferData) root1 loc).1
  | .FILE_NOT_FOUND =>
    modifyAt root1 loc (fun t => changeNodeStateT t NodeState.DELETING)
  | _ => modifyAt root1 loc recomputeNodeState

/-- `FileTreeNode::deleteFolderContentsData` on the node at `loc`. -/
def deleteFolderContentsDataAt (root : FTree) (loc : List Nat) : FTree :=
  modifyAt root loc (fun t =>
    .node { t.core with folderContentsKnown := false } (clearAllChildren t.children).1)

/-- `setLStask` / `setBuffTask` / `setFileBuffer` on the node at `loc`
(`setFileBuffer` propagates visibility upward through
`setNodeVisible`). -/
def setLStaskAt (root : FTree) (loc : List Nat) (newTask : Option Nat) : FTree :=
  modifyAt root loc (fun t => (setLStask t newTask).1)

def setBuffTaskAt (root : FTree) (loc : List Nat) (newTask : Option Nat) : FTree :=
  modifyAt root loc (fun t => (setBuffTask t newTask).1)

def setFileBufferAt (root : FTree) (loc : List Nat) (buf : Option (List Nat)) : FTree :=
  (propagateAt (fun t => setFileBuffer t buf) root loc).1

theorem getAt_cons (c : NodeCore) (cs : List FTree) (i : Nat) (rest : List Nat) :
    getAt (.node c cs) (i :: rest) =
      match cs[i]? with
      | none => none
      | some ch => getAt ch rest := rfl

theorem getAt_modifyAt (loc : List Nat) :
    ∀ (root t0 : FTree) (f : FTree → FTree), getAt root loc = some t0 →
      getAt (modifyAt root loc f) loc = some (f t0) := by
  induction loc with
  | nil =>
    intro root t0 f h
    simp only [getAt, Option.some_inj] at h
    subst h
    cases root with
    | node c cs => simp [modifyAt, getAt]
  | cons i rest ih =>
    intro root t0 f h
    cases root with
    | node c cs =>
      rw [getAt_cons] at h
      cases hcs : cs[i]? with
      | none =>
        rw [hcs] at h
        exact absurd h (by simp)
      | some ch =>
        rw [hcs] at h
        obtain ⟨hilt, _⟩ := List.getElem?_eq_some.mp hcs
        simp only [modifyAt, hcs]
        rw [getAt_cons, List.getElem?_set_eq hilt]
        exact ih ch t0 f h

theorem getAt_cons_children (t : FTree) (i : Nat) (rest : List Nat) :
    getAt t (i :: rest) =
      match t.children[i]? with
      | none => none
      | some ch => getAt ch rest := by
  cases t with
  | node c cs => rfl

theorem getAt_propagateAt (loc : List Nat) :
    ∀ (root t0 : FTree) (f : FTree → FTree × Bool), getAt root loc = some t0 →
      getAt (propagateAt f root loc).1 loc = some (f t0).1 := by
  induction loc with
  | nil =>
    intro root t0 f h
    simp only [getAt, Option.some_inj] at h
    subst h
    cases root with
    | node c cs => simp [propagateAt, getAt]
  | cons i rest ih =>
    intro root t0 f h
    cases root with
    | node c cs =>
      rw [getAt_cons] at h
      cases hcs : cs[i]? with
      | none =>
        rw [hcs] at h
        exact absurd h (by simp)
      | some ch =>
        rw [hcs] at h
        obtain ⟨hilt, _⟩ := List.getElem?_eq_some.mp hcs
        have hset : (cs.set i (propagateAt f ch rest).1)[i]? =
            some (propagateAt f ch rest).1 := List.getElem?_set_eq hilt
        have hrec := ih ch t0 f h
        simp only [propagateAt, hcs]
        by_cases hp : (propagateAt f ch rest).2
        · by_cases hv : c.nodeVisible
          · simp only [hp, hv, if_true, if_pos]
            rw [getAt_cons_children]
            simp only [FTree.children_node, hset]
            exact hrec
          · simp only [hp, hv, if_true, if_false, Bool.false_eq_true]
            rw [getAt_cons_children, recomputeNodeState_children]
            simp only [FTree.children_node, hset]
            exact hrec
        · simp only [hp, Bool.false_eq_true, if_false]
          rw [getAt_cons_children]
          simp only [FTree.children_node, hset]
          exact hrec

theorem updateFileNodeData_lsTask (c : NodeCore) (cs : List FTree)
    (list : List FileMetaData) :
    ((updateFileNodeData (.node c cs) list).1).core.lsTask = c.lsTask := by
  simp only [updateFileNodeData]
  split
  · rw [recomputeNodeState_lsTask]
  · split
    · rw [recomputeNodeState_lsTask]
    · rw [recomputeNodeState_lsTask]

theorem updateFileNodeData_fileDataBuffer (c : NodeCore) (cs : List FTree)
    (list : List FileMetaData) :
    ((updateFileNodeData (.node c cs) list).1).core.fileDataBuffer = c.fileDataBuffer := by
  simp only [updateFileNodeData]
  split
  · rw [recomputeNodeState_fileDataBuffer]
  · split
    · rw [recomputeNodeState_fileDataBuffer]
    · rw [recomputeNodeState_fileDataBuffer]

theorem setFileBuffer_bufferTask (t : FTree) (buf : Option (List Nat)) :
    ((setFileBuffer t buf).1).core.bufferTask = t.core.bufferTask := by
  cases t with
  | node c cs =>
    simp only [setFileBuffer]
    split
    · rw [recomputeNodeState_bufferTask]
      rfl
    · rw [recomputeNodeState_bufferTask]
      rfl

/-- What `deliverLSdata` leaves at the receiving node, for each reply
state: the ls task is cleared first, then `GOOD` data is applied only
when the control check passes, `FILE_NOT_FOUND` moves the node to
`DELETING`, and anything else just recomputes the state. -/
theorem deliverLSdataAt_getAt (root : FTree) (loc : List Nat) (t0 : FTree)
    (st : RequestState) (list : List FileMetaData)
    (hloc : getAt root loc = some t0) :
    getAt (deliverLSdataAt root loc st list) loc = some (
      match st with
      | RequestState.GOOD =>
        if verifyControlNodeAt (clearLsTaskAt root loc) loc list = false then
          recomputeNodeState (.node { t0.core with lsTask := none } t0.children)
        else
          (updateFileNodeData (.node { t0.core with lsTask := none } t0.children) list).1
      | RequestState.FILE_NOT_FOUND =>
        changeNodeStateT (.node { t0.core with lsTask := none } t0.children)
          NodeState.DELETING
      | _ => recomputeNodeState (.node { t0.core with lsTask := none } t0.children)) := by
  have hclear : getAt (clearLsTaskAt root loc) loc =
      some (.node { t0.core with lsTask := none } t0.children) :=
    getAt_modifyAt loc root t0 _ hloc
  cases st
  · simp only [deliverLSdataAt]
    split
    · exact getAt_modifyAt loc _ _ _ hclear
    · exact getAt_propagateAt loc _ _ _ hclear
  · exact getAt_modifyAt loc _ _ _ hclear
  · exact getAt_modifyAt loc _ _ _ hclear
  · exact getAt_modifyAt loc _ _ _ hclear

/-- What `deliverBuffData` leaves at the receiving node, for each reply
state. -/
theorem deliverBuffDataAt_getAt (root : FTree) (loc : List Nat) (t0 : FTree)
    (st : RequestState) (buf : Option (List Nat))
    (hloc : getAt root loc = some t0) :
    getAt (deliverBuffDataAt root loc st buf) loc = some (
      match st with
      | RequestState.GOOD =>
        (setFileBuffer (.node { t0.core with bufferTask := none } t0.children) buf).1
      | RequestState.FILE_NOT_FOUND =>
        changeNodeStateT (.node { t0.core with bufferTask := none } t0.children)
          NodeState.DELETING
      | _ => recomputeNodeState (.node { t0.core with bufferTask := none } t0.children)) := by
  have hclear : getAt (clearBuffTaskAt root loc) loc =
      some (.node { t0.core with bufferTask := none } t0.children) :=
    getAt_modifyAt loc root t0 _ hloc
  cases st
  · exact getAt_propagateAt loc _ _ _ hclear
  · exact getAt_modifyAt loc _ _ _ hclear
  · exact getAt_modifyAt loc _ _ _ hclear
  · exact getAt_modifyAt loc _ _ _ hclear

/-- C5: for every delivered reply the pending task pointer is cleared
first (the resulting node has no task, whatever the reply state); a
`FILE_NOT_FOUND` reply moves the node to `DELETING`; and a reply state
that is neither `GOOD` nor `FILE_NOT_FOUND` leaves the child list, the
folder-contents knowledge and the file buffer unchanged, the node state
merely being recomputed. -/
theorem claim_C5_reply_handling (root : FTree) (loc : List Nat) (t0 : FTree)
    (st : RequestState) (list : List FileMetaData) (buf : Option (List Nat))
    (hloc : getAt root loc = some t0) :
    (∃ t', getAt (deliverLSdataAt root loc st list) loc = some t' ∧
      t'.core.lsTask = none) ∧
    (∃ t', getAt (deliverBuffDataAt root loc st buf) loc = some t' ∧
      t'.core.bufferTask = none) ∧
    (st = RequestState.FILE_NOT_FOUND →
      (∃ t', getAt (deliverLSdataAt root loc st list) loc = some t' ∧
        t'.core.myState = NodeState.DELETING) ∧
      (∃ t', getAt (deliverBuffDataAt root loc st buf) loc = some t' ∧
        t'.core.myState = NodeState.DELETING)) ∧
    (st ≠ RequestState.GOOD → st ≠ RequestState.FILE_NOT_FOUND →
      getAt (deliverLSdataAt root loc st list) loc =
        some (recomputeNodeState (.node { t0.core with lsTask := none } t0.children)) ∧
      getAt (deliverBuffDataAt root loc st buf) loc =
        some (recomputeNodeState (.node { t0.core with bufferTask := none } t0.children)) ∧
      (∀ t', getAt (deliverLSdataAt root loc st list) loc = some t' →
        t'.children = t0.children ∧
        t'.core.folderContentsKnown = t0.core.folderContentsKnown ∧
        t'.core.fileDataBuffer = t0.core.fileDataBuffer) ∧
      (∀ t', getAt (deliverBuffDataAt root loc st buf) loc = some t' →
        t'.children = t0.children ∧
        t'.core.folderContentsKnown = t0.core.folderContentsKnown ∧
        t'.core.fileDataBuffer = t0.core.fileDataBuffer)) := by
  have hls := deliverLSdataAt_getAt root loc t0 st list hloc
  have hbf := deliverBuffDataAt_getAt root loc t0 st buf hloc
  refine ⟨?_, ?_, ?_, ?_⟩
  · refine ⟨_, hls, ?_⟩
    cases st
    · simp only []
      split
      · simp [recomputeNodeState_lsTask]
      · simp [updateFileNodeData_lsTask]
    · simp [changeNodeStateT, changeNodeStateCore_lsTask]
    · simp [recomputeNodeState_lsTask]
    · simp [recomputeNodeState_lsTask]
  · refine ⟨_, hbf, ?_⟩
    cases st
    · simp [setFileBuffer_bufferTask]
    · simp [changeNodeStateT, changeNodeStateCore_bufferTask]
    · simp [recomputeNodeState_bufferTask]
    · simp [recomputeNodeState_bufferTask]
  · rintro rfl
    exact ⟨⟨_, hls, changeNodeStateT_deleting _⟩, ⟨_, hbf, changeNodeStateT_deleting _⟩⟩
  · intro hg hf
    cases st
    · exact absurd rfl hg
    · exact absurd rfl hf
    all_goals
      refine ⟨hls, hbf, ?_, ?_⟩
    all_goals
      intro t' ht'
    · rw [hls, Option.some_inj] at ht'
      subst ht'
      exact ⟨recomputeNodeState_children _, recomputeNodeState_folderContentsKnown _ _,
        recomputeNodeState_fileDataBuffer _ _⟩
    · rw [hbf, Option.some_inj] at ht'
      subst ht'
      exact ⟨recomputeNodeState_children _, recomputeNodeState_folderContentsKnown _ _,
        recomputeNodeState_fileDataBuffer _ _⟩
    · rw [hls, Option.some_inj] at ht'
      subst ht'
      exact ⟨recomputeNodeState_children _, recomputeNodeState_folderContentsKnown _ _,
        recomputeNodeState_fileDataBuffer _ _⟩
    · rw [hbf, Option.some_inj] at ht'
      subst ht'
      exact ⟨recomputeNodeState_children _, recomputeNodeState_folderContentsKnown _ _,
        recomputeNodeState_fileDataBuffer _ _⟩

def c5wTree : FTree :=
  .node { fileData := { fullPath := "/r/b.txt", fileType := FileType.FILE, size := 4 }
          myState := NodeState.FILE_BUFF_LOADING
          nodeVisible := true
          bufferTask := some 3 } []

theorem claim_C5_witness :
    getAt c5wTree [] = some c5wTree ∧
    (∃ t', getAt (deliverBuffDataAt c5wTree [] RequestState.NO_CONNECT none) [] = some t' ∧
      t'.core.bufferTask = none) :=
  ⟨rfl,
    (claim_C5_reply_handling c5wTree [] c5wTree RequestState.NO_CONNECT [] none rfl).2.1⟩

theorem getContainingPath_ne_empty (m : FileMetaData) : m.getContainingPath ≠ "" := by
  unfold FileMetaData.getContainingPath
  intro h
  have hlen := congrArg String.length h
  rw [String.length_append] at hlen
  have h1 : String.length "/" = 1 := rfl
  have h0 : String.length "" = 0 := rfl
  rw [h1, h0] at hlen
  omega

/-- The control check accepts exactly when the first "." entry's
containing path resolves, from the tree root, to the receiving node. -/
theorem verifyControlNodeAt_iff (r : FTree) (l : List Nat) (list : List FileMetaData) :
    verifyControlNodeAt r l list = true ↔
      ∃ e, list.find? (fun e => decide (e.getFileName = ".")) = some e ∧
        getNodeWithNameIdx r e.getContainingPath = some l := by
  unfold verifyControlNodeAt getControlAddress
  cases hf : list.find? (fun e => decide (e.getFileName = ".")) with
  | none =>
    simp
  | some e =>
    rw [if_neg (getContainingPath_ne_empty e)]
    simp

def c3Root : FTree := mkRoot "r"

def c3e1 : FileMetaData := { fullPath := "/x/.", fileType := FileType.DIR, size := 0 }

def c3e2 : FileMetaData := { fullPath := "/r/.", fileType := FileType.DIR, size := 0 }

/-- C3, counterexample to the claim as stated: `getControlAddress` uses
only the FIRST "." entry.  Here the list contains a "." entry (the
second one) whose containing path resolves exactly to the receiving
node, so by the claim the data should be applied; but the first "."
entry points elsewhere, the control check fails, and the delivered data
is not applied (folder contents stay unknown and no child is
created). -/
theorem claim_C3_counterexample :
    (∃ e ∈ [c3e1, c3e2], e.getFileName = "." ∧
      getNodeWithNameIdx c3Root e.getContainingPath = some []) ∧
    getAt c3Root [] = some c3Root ∧
    c3Root.core.folderContentsKnown = false ∧
    (Option.map (fun t' => t'.core.folderContentsKnown)
        (getAt (deliverLSdataAt c3Root [] RequestState.GOOD [c3e1, c3e2]) []) =
      some false) ∧
    (Option.map (fun t' => t'.children.length)
        (getAt (deliverLSdataAt c3Root [] RequestState.GOOD [c3e1, c3e2]) []) =
      some 0) := by
  refine ⟨⟨c3e2, by simp, by decide, by decide⟩, rfl, by decide, by decide, by decide⟩

/-- C3 as amended: a `GOOD` ls reply is applied to the node if and only
if the FIRST entry named "." in the delivered list has a containing path
that, resolved as a path search from the tree's root, reaches exactly
the receiving node; when this verification fails the node's child list
and `folderContentsKnown` stay unchanged and only the node state is
recomputed (the cleared ls task aside). -/
theorem claim_C3_amended_control_check (root : FTree) (loc : List Nat) (t0 : FTree)
    (list : List FileMetaData) (hloc : getAt root loc = some t0) :
    (∀ (r : FTree) (l : List Nat),
      verifyControlNodeAt r l list = true ↔
        ∃ e, list.find? (fun e => decide (e.getFileName = ".")) = some e ∧
          getNodeWithNameIdx r e.getContainingPath = some l) ∧
    (verifyControlNodeAt (clearLsTaskAt root loc) loc list = false →
      getAt (deliverLSdataAt root loc RequestState.GOOD list) loc =
        some (recomputeNodeState (.node { t0.core with lsTask := none } t0.children)) ∧
      (∀ t', getAt (deliverLSdataAt root loc RequestState.GOOD list) loc = some t' →
        t'.children = t0.children ∧
        t'.core.folderContentsKnown = t0.core.folderContentsKnown)) ∧
    (verifyControlNodeAt (clearLsTaskAt root loc) loc list = true →
      getAt (deliverLSdataAt root loc RequestState.GOOD list) loc =
        some ((updateFileNodeData (.node { t0.core with lsTask := none } t0.children)
          list).1)) := by
  have hls := deliverLSdataAt_getAt root loc t0 RequestState.GOOD list hloc
  refine ⟨fun r l => verifyControlNodeAt_iff r l list, ?_, ?_⟩
  · intro hfail
    simp only [if_pos hfail] at hls
    refine ⟨hls, ?_⟩
    intro t' ht'
    rw [hls, Option.some_inj] at ht'
    subst ht'
    exact ⟨recomputeNodeState_children _, recomputeNodeState_folderContentsKnown _ _⟩
  · intro hsucc
    rw [if_neg (by simp [hsucc])] at hls
    exact hls

theorem claim_C3_amended_witness :
    verifyControlNodeAt (clearLsTaskAt c3Root []) [] [c3e2] = true ∧
    getAt (deliverLSdataAt c3Root [] RequestState.GOOD [c3e2]) [] =
      some ((updateFileNodeData
        (.node { c3Root.core with lsTask := none } c3Root.children) [c3e2]).1) :=
  ⟨by decide, (claim_C3_amended_control_check c3Root [] c3Root [c3e2] rfl).2.2 (by decide)⟩

/-- The mutating entry points of the `FileTreeNode` interface, each
applied to the node at an index path of the tree. -/
inductive OpCall where
  | setLS (loc : List Nat) (tid : Option Nat)
  | setBuff (loc : List Nat) (tid : Option Nat)
  | setVisible (loc : List Nat)
  | setBuffer (loc : List Nat) (buf : Option (List Nat))
  | deliverLS (loc : List Nat) (st : RequestState) (list : List FileMetaData)
  | deliverBuff (loc : List Nat) (st : RequestState) (buf : Option (List Nat))
  | clearFolderContents (loc : List Nat)

def applyOp (t : FTree) : OpCall → FTree
  | .setLS loc tid => setLStaskAt t loc tid
  | .setBuff loc tid => setBuffTaskAt t loc tid
  | .setVisible loc => setNodeVisibleAt t loc
  | .setBuffer loc buf => setFileBufferAt t loc buf
  | .deliverLS loc st list => deliverLSdataAt t loc st list
  | .deliverBuff loc st buf => deliverBuffDataAt t loc st buf
  | .clearFolderContents loc => deleteFolderContentsDataAt t loc

/-- Whether the operation is an ls-listing delivery — the only
operation that can create child nodes. -/
def OpCall.isLsDelivery : OpCall → Bool
  | .deliverLS _ _ _ => true
  | _ => false

mutual

/-- Upward closure of visibility: in every subtree, a visible child has
a visible parent. -/
def visOKb : FTree → Bool
  | .node c cs =>
    cs.all (fun ch => !ch.core.nodeVisible || c.nodeVisible) && visOKListb cs

def visOKListb : List FTree → Bool
  | [] => true
  | ch :: tl => visOKb ch && visOKListb tl

end

mutual

def nodeCount : FTree → Nat
  | .node _ cs => 1 + nodeCountList cs

def nodeCountList : List FTree → Nat
  | [] => 0
  | ch :: tl => nodeCount ch + nodeCountList tl

end

theorem visOKListb_iff (cs : List FTree) :
    visOKListb cs = true ↔ ∀ ch ∈ cs, visOKb ch = true := by
  induction cs with
  | nil => simp [visOKListb]
  | cons ch tl ih =>
    simp [visOKListb, ih]

theorem visOKb_node_iff (c : NodeCore) (cs : List FTree) :
    visOKb (.node c cs) = true ↔
      (∀ ch ∈ cs, ch.core.nodeVisible = true → c.nodeVisible = true) ∧
      (∀ ch ∈ cs, visOKb ch = true) := by
  simp only [visOKb, Bool.and_eq_true, List.all_eq_true, visOKListb_iff]
  constructor
  · rintro ⟨h1, h2⟩
    refine ⟨?_, h2⟩
    intro ch hch hv
    have := h1 ch hch
    rw [hv] at this
    simpa using this
  · rintro ⟨h1, h2⟩
    refine ⟨?_, h2⟩
    intro ch hch
    by_cases hv : ch.core.nodeVisible = true
    · simp [hv, h1 ch hch hv]
    · simp only [Bool.not_eq_true] at hv
      simp [hv]

theorem visOKb_leaf (c : NodeCore) : visOKb (.node c []) = true := by
  rw [visOKb_node_iff]
  constructor
  · intro ch hch
    exact absurd hch (List.not_mem_nil ch)
  · intro ch hch
    exact absurd hch (List.not_mem_nil ch)

theorem visOKb_congr (t t' : FTree) (hc : t.children = t'.children)
    (hv : t.core.nodeVisible = t'.core.nodeVisible) : visOKb t = visOKb t' := by
  cases t with
  | node c cs =>
    cases t' with
    | node c2 cs2 =>
      simp only [FTree.children_node, FTree.core_node] at hc hv
      subst hc
      simp only [visOKb, hv]

theorem nodeCount_congr (t t' : FTree) (hc : t.children = t'.children) :
    nodeCount t = nodeCount t' := by
  cases t with
  | node c cs =>
    cases t' with
    | node c2 cs2 =>
      simp only [FTree.children_node] at hc
      subst hc
      rfl

/-- A child surviving one `insertFile` either descends from a current
child (same children, same visibility, upward closure transferred) or is
a freshly constructed node (no children, invisible). -/
theorem insertFile_mem_weak (cur : List FTree) (e : FileMetaData) :
    ∀ ch' ∈ insertFile cur e,
      (∃ ch ∈ cur, ch'.children = ch.children ∧
        ch'.core.nodeVisible = ch.core.nodeVisible ∧
        (visOKb ch = true → visOKb ch' = true)) ∨
      (ch'.children = [] ∧ ch'.core.nodeVisible = false) := by
  by_cases hdot : e.getFileName = "."
  · rw [insertFile_of_dot cur hdot]
    intro ch' h
    exact Or.inl ⟨ch', h, rfl, rfl, fun x => x⟩
  · rw [insertFile_of_nondot cur hdot]
    intro ch' h
    induction cur with
    | nil =>
      simp only [insertFileGo, List.mem_singleton] at h
      subst h
      exact Or.inr ⟨mkChildNode_children e, mkChildNode_nodeVisible e⟩
    | cons c0 cur ih =>
      simp only [insertFileGo] at h
      by_cases hm : entryMatchesChild e c0 = true
      · rw [if_pos hm] at h
        rcases List.mem_cons.mp h with hup | htail
        · subst hup
          refine Or.inl ⟨c0, List.mem_cons_self _ _, ?_⟩
          split
          · refine ⟨setSizeT_children c0 _, setSizeT_nodeVisible c0 _, ?_⟩
            intro hok
            rw [visOKb_congr (setSizeT c0 _) c0 (setSizeT_children c0 _)
              (setSizeT_nodeVisible c0 _)]
            exact hok
          · exact ⟨rfl, rfl, fun x => x⟩
        · exact Or.inl ⟨ch', List.mem_cons_of_mem _ htail, rfl, rfl, fun x => x⟩
      · simp only [Bool.not_eq_true] at hm
        rw [if_neg (by simp [hm])] at h
        rcases List.mem_cons.mp h with rfl | htail
        · exact Or.inl ⟨ch', List.mem_cons_self _ _, rfl, rfl, fun x => x⟩
        · rcases ih htail with ⟨ch, hch, hp⟩ | hnew
          · exact Or.inl ⟨ch, List.mem_cons_of_mem _ hch, hp⟩
          · exact Or.inr hnew

theorem foldl_insertFile_mem_weak (es : List FileMetaData) :
    ∀ (cur : List FTree), ∀ ch' ∈ es.foldl insertFile cur,
      (∃ ch ∈ cur, ch'.children = ch.children ∧
        ch'.core.nodeVisible = ch.core.nodeVisible ∧
        (visOKb ch = true → visOKb ch' = true)) ∨
      (ch'.children = [] ∧ ch'.core.nodeVisible = false) := by
  induction es with
  | nil =>
    intro cur ch' h
    exact Or.inl ⟨ch', h, rfl, rfl, fun x => x⟩
  | cons e rest ih =>
    intro cur ch' h
    rcases ih (insertFile cur e) ch' h with ⟨ch1, hch1, hc1, hv1, hk1⟩ | hnew
    · rcases insertFile_mem_weak cur e ch1 hch1 with ⟨ch0, hch0, hc0, hv0, hk0⟩ | hnew0
      · exact Or.inl ⟨ch0, hch0, hc1.trans hc0, hv1.trans hv0, fun x => hk1 (hk0 x)⟩
      · exact Or.inr ⟨hc1.trans hnew0.1, hv1.trans hnew0.2⟩
    · exact Or.inr hnew

theorem visOKb_recompute (c : NodeCore) (cs : List FTree) :
    visOKb (recomputeNodeState (.node c cs)) = visOKb (.node c cs) := by
  apply visOKb_congr
  · rw [recomputeNodeState_children]
  · rw [recomputeNodeState_nodeVisible, FTree.core_node]

theorem childSetVisible_visOK (ch : FTree) (h : visOKb ch = true) :
    visOKb (childSetVisible ch) = true := by
  cases ch with
  | node c cs =>
    unfold childSetVisible
    simp only [FTree.core_node, FTree.children_node]
    split
    · exact h
    · rw [visOKb_recompute, visOKb_node_iff]
      exact ⟨fun ch2 _ _ => rfl, ((visOKb_node_iff c cs).mp h).2⟩

/-- `updateFileNodeData` keeps visibility upward-closed inside the
receiving subtree: the children all end visible, and the node itself is
visible whenever one of them is (either it was already visible, or the
visibility loop flips it). -/
theorem updateFileNodeData_visOK (list : List FileMetaData) (u : FTree)
    (h : visOKb u = true) : visOKb (updateFileNodeData u list).1 = true := by
  cases u with
  | node c cs =>
    rw [visOKb_node_iff] at h
    simp only [updateFileNodeData]
    split
    · rw [visOKb_recompute]
      exact visOKb_leaf _
    · have hcs1sub : ∀ ch ∈ (purgeUnmatchedChildren cs list).1, ch ∈ cs := by
        intro ch hch
        exact (purgeUnmatchedChildren_sublist cs list).mem hch
      have hcs2w := foldl_insertFile_mem_weak list (purgeUnmatchedChildren cs list).1
      have hvisOK2 : ∀ ch2 ∈ list.foldl insertFile (purgeUnmatchedChildren cs list).1,
          visOKb ch2 = true := by
        intro ch2 hch2
        rcases hcs2w ch2 hch2 with ⟨ch1, hch1, _, _, hk⟩ | ⟨hnil, _⟩
        · exact hk (h.2 ch1 (hcs1sub ch1 hch1))
        · cases ch2 with
          | node c2 cs2 =>
            simp only [FTree.children_node] at hnil
            subst hnil
            exact visOKb_leaf c2
      have hvisorigin : ∀ ch2 ∈ list.foldl insertFile (purgeUnmatchedChildren cs list).1,
          ch2.core.nodeVisible = true → c.nodeVisible = true := by
        intro ch2 hch2 hv2
        rcases hcs2w ch2 hch2 with ⟨ch1, hch1, _, hveq, _⟩ | ⟨_, hfalse⟩
        · exact h.1 ch1 (hcs1sub ch1 hch1) (hveq.symm.trans hv2)
        · rw [hv2] at hfalse
          exact absurd hfalse (by simp)
      rw [visOKb_recompute, visOKb_node_iff]
      constructor
      · intro ch3 hch3 _
        split
        · rfl
        · next hcond =>
          show c.nodeVisible = true
          rw [Bool.and_eq_true, not_and_or] at hcond
          rcases hcond with hany | hvis
          · -- no child was invisible before the loop, so the child
            -- behind `ch3` was already visible, and the original
            -- invariant makes the node visible
            obtain ⟨ch2, hch2, _⟩ := List.mem_map.mp hch3
            refine hvisorigin ch2 hch2 ?_
            simp only [List.any_eq_true, Bool.not_eq_true'] at hany
            push_neg at hany
            have := hany ch2 hch2
            simpa using this
          · simpa using hvis
      · intro ch3 hch3
        obtain ⟨ch2, hch2, rfl⟩ := List.mem_map.mp hch3
        exact childSetVisible_visOK ch2 (hvisOK2 ch2 hch2)

theorem updateFileNodeData_flag_true (list : List FileMetaData) (u : FTree)
    (h : (updateFileNodeData u list).2 = true) :
    ((updateFileNodeData u list).1).core.nodeVisible = true := by
  cases u with
  | node c cs =>
    by_cases hlen : list.length ≤ 1
    · simp only [updateFileNodeData, if_pos hlen] at h
      exact absurd h (by simp)
    · simp only [updateFileNodeData, if_neg hlen] at h ⊢
      rw [recomputeNodeState_nodeVisible, if_pos h]

theorem updateFileNodeData_flag_false (list : List FileMetaData) (u : FTree)
    (h : (updateFileNodeData u list).2 = false) :
    ((updateFileNodeData u list).1).core.nodeVisible = u.core.nodeVisible := by
  cases u with
  | node c cs =>
    by_cases hlen : list.length ≤ 1
    · simp only [updateFileNodeData, if_pos hlen]
      rw [recomputeNodeState_nodeVisible]
      rfl
    · simp only [updateFileNodeData, if_neg hlen] at h ⊢
      rw [recomputeNodeState_nodeVisible, if_neg (by simp [h])]
      rfl

theorem setVisSelf_visOK (u : FTree) (h : visOKb u = true) :
    visOKb (setVisSelf u).1 = true := by
  cases u with
  | node c cs =>
    simp only [setVisSelf]
    split
    · exact h
    · rw [visOKb_recompute, visOKb_node_iff]
      exact ⟨fun ch2 _ _ => rfl, ((visOKb_node_iff c cs).mp h).2⟩

theorem setVisSelf_flag_true (u : FTree) (h : (setVisSelf u).2 = true) :
    (setVisSelf u).1.core.nodeVisible = true := by
  cases u with
  | node c cs =>
    simp only [setVisSelf] at h ⊢
    split at h
    · exact absurd h (by simp)
    · next hc =>
      rw [if_neg hc, recomputeNodeState_nodeVisible]

theorem setVisSelf_flag_false (u : FTree) (h : (setVisSelf u).2 = false) :
    (setVisSelf u).1.core.nodeVisible = u.core.nodeVisible := by
  cases u with
  | node c cs =>
    simp only [setVisSelf] at h ⊢
    split at h
    · next hc =>
      simp only [if_pos hc]
    · exact absurd h (by simp)

theorem setFileBuffer_visOK (buf : Option (List Nat)) (u : FTree)
    (h : visOKb u = true) : visOKb (setFileBuffer u buf).1 = true := by
  cases u with
  | node c cs =>
    rw [visOKb_node_iff] at h
    simp only [setFileBuffer]
    split
    · rw [visOKb_recompute, visOKb_node_iff]
      refine ⟨?_, h.2⟩
      intro ch hch hv
      exact h.1 ch hch hv
    · rw [visOKb_recompute, visOKb_node_iff]
      exact ⟨fun ch2 _ _ => rfl, h.2⟩

theorem setFileBuffer_flag_true (buf : Option (List Nat)) (u : FTree)
    (h : (setFileBuffer u buf).2 = true) :
    (setFileBuffer u buf).1.core.nodeVisible = true := by
  cases u with
  | node c cs =>
    simp only [setFileBuffer] at h ⊢
    split at h
    · exact absurd h (by simp)
    · next hc =>
      rw [if_neg hc, recomputeNodeState_nodeVisible]

theorem setFileBuffer_flag_false (buf : Option (List Nat)) (u : FTree)
    (h : (setFileBuffer u buf).2 = false) :
    (setFileBuffer u buf).1.core.nodeVisible = u.core.nodeVisible := by
  cases u with
  | node c cs =>
    simp only [setFileBuffer] at h ⊢
    split at h
    · next hc =>
      rw [if_pos hc, recomputeNodeState_nodeVisible]
      rfl
    · exact absurd h (by simp)

/-- The upward propagation of `setNodeVisible` preserves upward closure
of visibility: whenever the target operation does so locally and
reports visibility flips faithfully, the propagated operation keeps the
whole tree upward-closed, its flag again reporting the root's flip. -/
theorem propagateAt_visOK (f : FTree → FTree × Bool)
    (hf1 : ∀ u, visOKb u = true → visOKb (f u).1 = true)
    (hf2 : ∀ u, (f u).2 = true → (f u).1.core.nodeVisible = true)
    (hf3 : ∀ u, (f u).2 = false → (f u).1.core.nodeVisible = u.core.nodeVisible) :
    ∀ (loc : List Nat) (t : FTree), visOKb t = true →
      visOKb (propagateAt f t loc).1 = true ∧
      ((propagateAt f t loc).2 = true →
        (propagateAt f t loc).1.core.nodeVisible = true) ∧
      ((propagateAt f t loc).2 = false →
        (propagateAt f t loc).1.core.nodeVisible = t.core.nodeVisible) := by
  intro loc
  induction loc with
  | nil =>
    intro t h
    cases t with
    | node c cs =>
      simp only [propagateAt]
      exact ⟨hf1 _ h, hf2 _, hf3 _⟩
  | cons i rest ih =>
    intro t h
    cases t with
    | node c cs =>
      cases hcs : cs[i]? with
      | none =>
        simp only [propagateAt, hcs]
        exact ⟨h, by simp, by simp⟩
      | some ch =>
        simp only [propagateAt, hcs]
        have hchmem : ch ∈ cs := List.getElem?_mem hcs
        have hchok : visOKb ch = true := ((visOKb_node_iff c cs).mp h).2 ch hchmem
        obtain ⟨ihok, ihT, ihF⟩ := ih ch hchok
        have hmemset : ∀ ch' ∈ cs.set i (propagateAt f ch rest).1,
            ch' ∈ cs ∨ ch' = (propagateAt f ch rest).1 :=
          fun ch' h' => List.mem_or_eq_of_mem_set h'
        have hsubs : ∀ ch' ∈ cs.set i (propagateAt f ch rest).1, visOKb ch' = true := by
          intro ch' h'
          rcases hmemset ch' h' with hin | rfl
          · exact ((visOKb_node_iff c cs).mp h).2 ch' hin
          · exact ihok
        by_cases hflag : (propagateAt f ch rest).2 = true
        · rw [if_pos hflag]
          by_cases hcv : c.nodeVisible = true
          · rw [if_pos hcv]
            refine ⟨?_, by simp, fun _ => rfl⟩
            rw [visOKb_node_iff]
            exact ⟨fun _ _ _ => hcv, hsubs⟩
          · rw [if_neg hcv]
            refine ⟨?_, ?_, ?_⟩
            · rw [visOKb_recompute, visOKb_node_iff]
              exact ⟨fun _ _ _ => rfl, hsubs⟩
            · intro _
              rw [recomputeNodeState_nodeVisible]
            · intro hF
              exact absurd hF (by simp)
        · rw [if_neg hflag]
          simp only [Bool.not_eq_true] at hflag
          have hveq : (propagateAt f ch rest).1.core.nodeVisible = ch.core.nodeVisible :=
            ihF hflag
          refine ⟨?_, by simp, fun _ => rfl⟩
          rw [visOKb_node_iff]
          refine ⟨?_, hsubs⟩
          intro ch' h' hv'
          rcases hmemset ch' h' with hin | rfl
          · exact ((visOKb_node_iff c cs).mp h).1 ch' hin hv'
          · exact ((visOKb_node_iff c cs).mp h).1 ch hchmem (hveq.symm.trans hv')

/-- Modifying a node in place preserves upward closure of visibility
whenever the modification does so locally and does not change the
node's own visibility. -/
theorem modifyAt_rootVis (f : FTree → FTree)
    (hfv : ∀ u, (f u).core.nodeVisible = u.core.nodeVisible) :
    ∀ (loc : List Nat) (t : FTree),
      (modifyAt t loc f).core.nodeVisible = t.core.nodeVisible := by
  intro loc
  induction loc with
  | nil =>
    intro t
    cases t with
    | node c cs =>
      simp only [modifyAt]
      exact hfv _
  | cons i rest ih =>
    intro t
    cases t with
    | node c cs =>
      simp only [modifyAt]
      cases hcs : cs[i]? with
      | none => rfl
      | some ch => rfl

theorem modifyAt_visOK (f : FTree → FTree)
    (hfv : ∀ u, (f u).core.nodeVisible = u.core.nodeVisible)
    (hfo : ∀ u, visOKb u = true → visOKb (f u) = true) :
    ∀ (loc : List Nat) (t : FTree), visOKb t = true →
      visOKb (modifyAt t loc f) = true := by
  intro loc
  induction loc with
  | nil =>
    intro t h
    cases t with
    | node c cs =>
      simp only [modifyAt]
      exact hfo _ h
  | cons i rest ih =>
    intro t h
    cases t with
    | node c cs =>
      simp only [modifyAt]
      cases hcs : cs[i]? with
      | none => exact h
      | some ch =>
        have hchmem : ch ∈ cs := List.getElem?_mem hcs
        rw [visOKb_node_iff]
        constructor
        · intro ch' h' hv'
          rcases List.mem_or_eq_of_mem_set h' with hin | rfl
          · exact ((visOKb_node_iff c cs).mp h).1 ch' hin hv'
          · refine ((visOKb_node_iff c cs).mp h).1 ch hchmem ?_
            rw [← modifyAt_rootVis f hfv rest ch]
            exact hv'
        · intro ch' h'
          rcases List.mem_or_eq_of_mem_set h' with hin | rfl
          · exact ((visOKb_node_iff c cs).mp h).2 ch' hin
          · exact ih ch (((visOKb_node_iff c cs).mp h).2 ch hchmem)

theorem setLStask_fst_children (u : FTree) (tid : Option Nat) :
    ((setLStask u tid).1).children = u.children := by
  cases tid with
  | none => rfl
  | some i =>
    simp only [setLStask]
    split
    · rfl
    · rw [recomputeNodeState_children]
      rfl

theorem setLStask_fst_nodeVisible (u : FTree) (tid : Option Nat) :
    ((setLStask u tid).1).core.nodeVisible = u.core.nodeVisible := by
  cases tid with
  | none => rfl
  | some i =>
    simp only [setLStask]
    split
    · rfl
    · rw [recomputeNodeState_nodeVisible]

theorem setBuffTask_fst_children (u : FTree) (tid : Option Nat) :
    ((setBuffTask u tid).1).children = u.children := by
  cases tid with
  | none => rfl
  | some i =>
    simp only [setBuffTask]
    split
    · rfl
    · rw [recomputeNodeState_children]
      rfl

theorem setBuffTask_fst_nodeVisible (u : FTree) (tid : Option Nat) :
    ((setBuffTask u tid).1).core.nodeVisible = u.core.nodeVisible := by
  cases tid with
  | none => rfl
  | some i =>
    simp only [setBuffTask]
    split
    · rfl
    · rw [recomputeNodeState_nodeVisible]

theorem visOK_of_children_vis_eq (f : FTree → FTree)
    (hc : ∀ u, (f u).children = u.children)
    (hv : ∀ u, (f u).core.nodeVisible = u.core.nodeVisible) :
    ∀ u, visOKb u = true → visOKb (f u) = true := by
  intro u h
  rw [visOKb_congr (f u) u (hc u) (hv u)]
  exact h

theorem recomputeNodeState_children_any (u : FTree) :
    (recomputeNodeState u).children = u.children := recomputeNodeState_children u

theorem recomputeNodeState_nodeVisible_any (u : FTree) :
    (recomputeNodeState u).core.nodeVisible = u.core.nodeVisible := by
  cases u with
  | node c cs =>
    rw [recomputeNodeState_nodeVisible]
    rfl

theorem changeNodeStateT_children (u : FTree) (s : NodeState) :
    (changeNodeStateT u s).children = u.children := rfl

theorem changeNodeStateT_nodeVisible (u : FTree) (s : NodeState) :
    (changeNodeStateT u s).core.nodeVisible = u.core.nodeVisible := by
  simp only [changeNodeStateT, FTree.core_node, changeNodeStateCore_nodeVisible]

/-- C10: visibility is upward-closed and every operation preserves it. A
root node is constructed visible with no children; a child node is
constructed invisible; and each mutating operation of the interface —
`setNodeVisible` being the only one that turns visibility on, making
every ancestor visible as it propagates — maps a tree whose visibility
is upward-closed to another such tree. -/
theorem claim_C10_visibility_upward_closed :
    (∀ name, visOKb (mkRoot name) = true ∧ (mkRoot name).core.nodeVisible = true) ∧
    (∀ e, (mkChildNode e).core.nodeVisible = false) ∧
    (∀ (t : FTree) (op : OpCall), visOKb t = true → visOKb (applyOp t op) = true) := by
  refine ⟨?_, mkChildNode_nodeVisible, ?_⟩
  · intro name
    constructor
    · unfold mkRoot
      rw [visOKb_recompute]
      exact visOKb_leaf _
    · unfold mkRoot
      rw [recomputeNodeState_nodeVisible]
  · intro t op h
    cases op with
    | setLS loc tid =>
      exact modifyAt_visOK _ (fun u => setLStask_fst_nodeVisible u tid)
        (visOK_of_children_vis_eq _ (fun u => setLStask_fst_children u tid)
          (fun u => setLStask_fst_nodeVisible u tid)) loc t h
    | setBuff loc tid =>
      exact modifyAt_visOK _ (fun u => setBuffTask_fst_nodeVisible u tid)
        (visOK_of_children_vis_eq _ (fun u => setBuffTask_fst_children u tid)
          (fun u => setBuffTask_fst_nodeVisible u tid)) loc t h
    | setVisible loc =>
      exact (propagateAt_visOK setVisSelf setVisSelf_visOK setVisSelf_flag_true
        setVisSelf_flag_false loc t h).1
    | setBuffer loc buf =>
      exact (propagateAt_visOK _ (setFileBuffer_visOK buf) (setFileBuffer_flag_true buf)
        (setFileBuffer_flag_false buf) loc t h).1
    | deliverLS loc st list =>
      have hclear : visOKb (clearLsTaskAt t loc) = true := by
        show visOKb (modifyAt t loc
          (fun u => FTree.node { u.core with lsTask := none } u.children)) = true
        exact modifyAt_visOK (fun u => FTree.node { u.core with lsTask := none } u.children)
          (fun u => rfl)
          (visOK_of_children_vis_eq _ (fun u => rfl) (fun u => rfl)) loc t h
      have hrec : ∀ (r : FTree), visOKb r = true →
          visOKb (modifyAt r loc recomputeNodeState) = true :=
        fun r hr => modifyAt_visOK recomputeNodeState recomputeNodeState_nodeVisible_any
          (visOK_of_children_vis_eq _ recomputeNodeState_children_any
            recomputeNodeState_nodeVisible_any) loc r hr
      cases st
      · show visOKb (if verifyControlNodeAt (clearLsTaskAt t loc) loc list = false
            then modifyAt (clearLsTaskAt t loc) loc recomputeNodeState
            else (propagateAt (fun u => updateFileNodeData u list)
              (clearLsTaskAt t loc) loc).1) = true
        split
        · exact hrec _ hclear
        · exact (propagateAt_visOK _ (updateFileNodeData_visOK list)
            (updateFileNodeData_flag_true list) (updateFileNodeData_flag_false list)
            loc _ hclear).1
      · show visOKb (modifyAt (clearLsTaskAt t loc) loc
            (fun u => changeNodeStateT u NodeState.DELETING)) = true
        exact modifyAt_visOK (fun u => changeNodeStateT u NodeState.DELETING)
          (fun u => changeNodeStateT_nodeVisible u _)
          (visOK_of_children_vis_eq _ (fun u => changeNodeStateT_children u _)
            (fun u => changeNodeStateT_nodeVisible u _)) loc _ hclear
      · show visOKb (modifyAt (clearLsTaskAt t loc) loc recomputeNodeState) = true
        exact hrec _ hclear
      · show visOKb (modifyAt (clearLsTaskAt t loc) loc recomputeNodeState) = true
        exact hrec _ hclear
    | deliverBuff loc st buf =>
      have hclear : visOKb (clearBuffTaskAt t loc) = true := by
        show visOKb (modifyAt t loc
          (fun u => FTree.node { u.core with bufferTask := none } u.children)) = true
        exact modifyAt_visOK (fun u => FTree.node { u.core with bufferTask := none } u.children)
          (fun u => rfl)
          (visOK_of_children_vis_eq _ (fun u => rfl) (fun u => rfl)) loc t h
      have hrec : ∀ (r : FTree), visOKb r = true →
          visOKb (modifyAt r loc recomputeNodeState) = true :=
        fun r hr => modifyAt_visOK recomputeNodeState recomputeNodeState_nodeVisible_any
          (visOK_of_children_vis_eq _ recomputeNodeState_children_any
            recomputeNodeState_nodeVisible_any) loc r hr
      cases st
      · show visOKb ((propagateAt (fun u => setFileBuffer u buf)
            (clearBuffTaskAt t loc) loc).1) = true
        exact (propagateAt_visOK _ (setFileBuffer_visOK buf) (setFileBuffer_flag_true buf)
          (setFileBuffer_flag_false buf) loc _ hclear).1
      · show visOKb (modifyAt (clearBuffTaskAt t loc) loc
            (fun u => changeNodeStateT u NodeState.DELETING)) = true
        exact modifyAt_visOK (fun u => changeNodeStateT u NodeState.DELETING)
          (fun u => changeNodeStateT_nodeVisible u _)
          (visOK_of_children_vis_eq _ (fun u => changeNodeStateT_children u _)
            (fun u => changeNodeStateT_nodeVisible u _)) loc _ hclear
      · show visOKb (modifyAt (clearBuffTaskAt t loc) loc recomputeNodeState) = true
        exact hrec _ hclear
      · show visOKb (modifyAt (clearBuffTaskAt t loc) loc recomputeNodeState) = true
        exact hrec _ hclear
    | clearFolderContents loc =>
      show visOKb (modifyAt t loc (fun u =>
        FTree.node { u.core with folderContentsKnown := false }
          (clearAllChildren u.children).1)) = true
      exact modifyAt_visOK (fun u =>
          FTree.node { u.core with folderContentsKnown := false }
            (clearAllChildren u.children).1)
        (fun u => rfl) (fun u hu => visOKb_leaf _) loc t h

def c10wTree : FTree :=
  .node { fileData := { fullPath := "/r", fileType := FileType.DIR, size := 0 }
          myState := NodeState.FOLDER_KNOWN_CONTENTS_NOT
          nodeVisible := true } []

theorem claim_C10_witness :
    visOKb c10wTree = true ∧
    visOKb (applyOp c10wTree (OpCall.setVisible [])) = true :=
  have hv : visOKb c10wTree = true := visOKb_leaf _
  ⟨hv, claim_C10_visibility_upward_closed.2.2 c10wTree (OpCall.setVisible []) hv⟩

theorem nodeCount_node (c : NodeCore) (cs : List FTree) :
    nodeCount (.node c cs) = 1 + nodeCountList cs := by
  simp [nodeCount]

theorem nodeCountList_set_le (cs : List FTree) :
    ∀ (i : Nat) (x ch : FTree), cs[i]? = some ch → nodeCount x ≤ nodeCount ch →
      nodeCountList (cs.set i x) ≤ nodeCountList cs := by
  induction cs with
  | nil =>
    intro i x ch h
    simp at h
  | cons c0 tl ih =>
    intro i x ch h hle
    cases i with
    | zero =>
      simp only [List.getElem?_cons_zero, Option.some_inj] at h
      subst h
      simp only [List.set_cons_zero, nodeCountList]
      exact Nat.add_le_add_right hle _
    | succ n =>
      simp only [List.getElem?_cons_succ] at h
      simp only [List.set_cons_succ, nodeCountList]
      exact Nat.add_le_add_left (ih n x ch h hle) _

theorem nodeCount_modifyAt_le (f : FTree → FTree)
    (hf : ∀ u, nodeCount (f u) ≤ nodeCount u) :
    ∀ (loc : List Nat) (t : FTree), nodeCount (modifyAt t loc f) ≤ nodeCount t := by
  intro loc
  induction loc with
  | nil =>
    intro t
    cases t with
    | node c cs =>
      simp only [modifyAt]
      exact hf _
  | cons i rest ih =>
    intro t
    cases t with
    | node c cs =>
      cases hcs : cs[i]? with
      | none =>
        simp only [modifyAt, hcs]
        exact Nat.le_refl _
      | some ch =>
        simp only [modifyAt, hcs, nodeCount_node]
        exact Nat.add_le_add_left
          (nodeCountList_set_le cs i _ ch hcs (ih ch)) _

theorem nodeCount_propagateAt_le (f : FTree → FTree × Bool)
    (hf : ∀ u, nodeCount (f u).1 ≤ nodeCount u) :
    ∀ (loc : List Nat) (t : FTree), nodeCount (propagateAt f t loc).1 ≤ nodeCount t := by
  intro loc
  induction loc with
  | nil =>
    intro t
    cases t with
    | node c cs =>
      simp only [propagateAt]
      exact hf _
  | cons i rest ih =>
    intro t
    cases t with
    | node c cs =>
      cases hcs : cs[i]? with
      | none =>
        simp only [propagateAt, hcs]
        exact Nat.le_refl _
      | some ch =>
        simp only [propagateAt, hcs]
        have hsetle : nodeCountList (cs.set i (propagateAt f ch rest).1) ≤
            nodeCountList cs :=
          nodeCountList_set_le cs i _ ch hcs (ih ch)
        split
        · split
          · rw [nodeCount_node, nodeCount_node]
            exact Nat.add_le_add_left hsetle _
          · rw [nodeCount_congr _ (.node { c with nodeVisible := true }
                (cs.set i (propagateAt f ch rest).1)) (recomputeNodeState_children _),
              nodeCount_node, nodeCount_node]
            exact Nat.add_le_add_left hsetle _
        · rw [nodeCount_node, nodeCount_node]
          exact Nat.add_le_add_left hsetle _

theorem nodeCount_recompute (u : FTree) :
    nodeCount (recomputeNodeState u) = nodeCount u :=
  nodeCount_congr _ _ (recomputeNodeState_children u)

theorem nodeCount_setLStask (u : FTree) (tid : Option Nat) :
    nodeCount (setLStask u tid).1 = nodeCount u :=
  nodeCount_congr _ _ (setLStask_fst_children u tid)

theorem nodeCount_setBuffTask (u : FTree) (tid : Option Nat) :
    nodeCount (setBuffTask u tid).1 = nodeCount u :=
  nodeCount_congr _ _ (setBuffTask_fst_children u tid)

theorem setVisSelf_fst_children (u : FTree) :
    ((setVisSelf u).1).children = u.children := by
  cases u with
  | node c cs =>
    simp only [setVisSelf]
    split
    · rfl
    · rw [recomputeNodeState_children]
      rfl

theorem setFileBuffer_fst_children (u : FTree) (buf : Option (List Nat)) :
    ((setFileBuffer u buf).1).children = u.children := by
  cases u with
  | node c cs =>
    simp only [setFileBuffer]
    split
    · rw [recomputeNodeState_children]
      rfl
    · rw [recomputeNodeState_children]
      rfl

theorem nodeCount_changeNodeStateT (u : FTree) (s : NodeState) :
    nodeCount (changeNodeStateT u s) = nodeCount u :=
  nodeCount_congr _ _ (changeNodeStateT_children u s)

/-- C7: the tree is populated lazily.  A root node built from a folder
name is a visible directory whose full path is "/" plus the root folder
name with double slashes removed, with no children, unknown folder
contents, and state `FOLDER_KNOWN_CONTENTS_NOT`.  No operation other
than an ls-data delivery ever increases the number of nodes in the
tree.  A delivered listing with at most one entry (only the "." control
entry) removes every existing child — each moved to `DELETING` — while
marking the folder contents known. -/
theorem claim_C7_lazy_population (name : String) (t : FTree) (c : NodeCore)
    (cs : List FTree) (list : List FileMetaData) :
    (mkRoot name).children = [] ∧
    (mkRoot name).core.nodeVisible = true ∧
    (mkRoot name).core.fileData.getFileType = FileType.DIR ∧
    (mkRoot name).core.fileData.getFullPath = removeDoubleSlashes ("/" ++ name) ∧
    (mkRoot name).core.folderContentsKnown = false ∧
    (mkRoot name).core.myState = NodeState.FOLDER_KNOWN_CONTENTS_NOT ∧
    (∀ op : OpCall, op.isLsDelivery = false → nodeCount (applyOp t op) ≤ nodeCount t) ∧
    (list.length ≤ 1 →
      ((updateFileNodeData (.node c cs) list).1).children = [] ∧
      ((updateFileNodeData (.node c cs) list).1).core.folderContentsKnown = true ∧
      (∀ d ∈ (clearAllChildren cs).2, d.core.myState = NodeState.DELETING)) := by
  refine ⟨rfl, rfl, rfl, rfl, rfl, rfl, ?_, ?_⟩
  · intro op hop
    cases op with
    | setLS loc tid =>
      exact nodeCount_modifyAt_le _ (fun u => (nodeCount_setLStask u tid).le) loc t
    | setBuff loc tid =>
      exact nodeCount_modifyAt_le _ (fun u => (nodeCount_setBuffTask u tid).le) loc t
    | setVisible loc =>
      exact nodeCount_propagateAt_le setVisSelf
        (fun u => (nodeCount_congr _ _ (setVisSelf_fst_children u)).le) loc t
    | setBuffer loc buf =>
      exact nodeCount_propagateAt_le _
        (fun u => (nodeCount_congr _ _ (setFileBuffer_fst_children u buf)).le) loc t
    | deliverLS loc st list2 =>
      exact absurd hop (by simp [OpCall.isLsDelivery])
    | deliverBuff loc st buf =>
      have hclear : nodeCount (clearBuffTaskAt t loc) ≤ nodeCount t :=
        nodeCount_modifyAt_le _
          (fun u => (nodeCount_congr
            (FTree.node { u.core with bufferTask := none } u.children) u
            (by cases u with | node c2 cs2 => rfl)).le)
          loc t
      cases st
      · show nodeCount ((propagateAt (fun u => setFileBuffer u buf)
            (clearBuffTaskAt t loc) loc).1) ≤ nodeCount t
        exact le_trans (nodeCount_propagateAt_le _
          (fun u => (nodeCount_congr _ _ (setFileBuffer_fst_children u buf)).le) loc _)
          hclear
      · show nodeCount (modifyAt (clearBuffTaskAt t loc) loc
            (fun u => changeNodeStateT u NodeState.DELETING)) ≤ nodeCount t
        exact le_trans (nodeCount_modifyAt_le _
          (fun u => (nodeCount_changeNodeStateT u _).le) loc _) hclear
      · show nodeCount (modifyAt (clearBuffTaskAt t loc) loc recomputeNodeState) ≤
            nodeCount t
        exact le_trans (nodeCount_modifyAt_le _
          (fun u => (nodeCount_recompute u).le) loc _) hclear
      · show nodeCount (modifyAt (clearBuffTaskAt t loc) loc recomputeNodeState) ≤
            nodeCount t
        exact le_trans (nodeCount_modifyAt_le _
          (fun u => (nodeCount_recompute u).le) loc _) hclear
    | clearFolderContents loc =>
      refine nodeCount_modifyAt_le _ ?_ loc t
      intro u
      cases u with
      | node c2 cs2 =>
        have h1 : (clearAllChildren ((FTree.node c2 cs2).children)).1 = [] := rfl
        rw [show (FTree.node { (FTree.node c2 cs2).core with folderContentsKnown := false }
          (clearAllChildren ((FTree.node c2 cs2).children)).1) =
          (FTree.node { c2 with folderContentsKnown := false } []) from by rw [h1]; rfl]
        rw [nodeCount_node, nodeCount_node]
        have : nodeCountList ([] : List FTree) = 0 := by simp [nodeCountList]
        rw [this]
        exact Nat.add_le_add_left (Nat.zero_le _) _
  · intro hlen
    refine ⟨updateFileNodeData_children_short (.node c cs) list hlen,
      updateFileNodeData_folderContentsKnown c cs list, ?_⟩
    intro d hd
    simp only [clearAllChildren, List.mem_map] at hd
    obtain ⟨ch, _, rfl⟩ := hd
    exact changeNodeStateT_deleting ch

def c7wTree : FTree :=
  .node { fileData := { fullPath := "/w", fileType := FileType.DIR, size := 0 }
          myState := NodeState.FOLDER_KNOWN_CONTENTS_NOT
          nodeVisible := true } []

theorem claim_C7_witness :
    ((OpCall.clearFolderContents []).isLsDelivery = false) ∧
    ([] : List FileMetaData).length ≤ 1 ∧
    nodeCount (applyOp c7wTree (OpCall.clearFolderContents [])) ≤ nodeCount c7wTree ∧
    ((updateFileNodeData (.node c7wTree.core []) []).1).children = [] :=
  have h := claim_C7_lazy_population "w" c7wTree c7wTree.core [] []
  ⟨by decide, by decide,
    h.2.2.2.2.2.2.1 (OpCall.clearFolderContents []) (by decide),
    (h.2.2.2.2.2.2.2 (by decide)).1⟩
